import Mathlib

/-!
# A verification model of json11 (geode-sdk fork)

This file gives a shallow embedding of the `json11` JSON library (header
`include/json11.hpp`) and proves properties of its value model, parser,
serializer and shape validator.

The repository ships only the header; the bodies of `Json::parse`,
`Json::dump`, the comparison operators, the accessors and `Json::has_shape`
live in a translation unit that is not part of the source tree.  Definitions
for those operations are therefore modelled from the specification document
(each such definition carries a doc comment starting with
`Modelled from the spec:`).  Everything that is visible in the header — the
`Type` enumeration and its order, the `object` representation as a vector of
pairs, the `is<T>()` template, the derived comparison operators and the
`dump()`/`try_parse` wrappers — is embedded directly from the header.

Numbers: json11 stores every number as an IEEE-754 `double`.  Doubles do not
translate to a shallow embedding; numbers are modelled exactly, as rationals.
All numeric literals appearing in the claims (small integers, halves, and
2^53) are exactly representable as doubles, so on these values the model and
the C++ code agree.
-/

/-- The `Json::Type` enumeration, in the header's declaration order
(`NUL, NUMBER, BOOL, STRING, ARRAY, OBJECT`, json11.hpp lines 89-91). -/
inductive JType where
  | NUL
  | NUMBER
  | BOOL
  | STRING
  | ARRAY
  | OBJECT
deriving DecidableEq, Repr

/-- The integer value of a `Json::Type` enumerator: its position in the
header's declaration order.  C++ compares unscoped enumerators by this
value. -/
def JType.rank : JType → Nat
  | .NUL => 0
  | .NUMBER => 1
  | .BOOL => 2
  | .STRING => 3
  | .ARRAY => 4
  | .OBJECT => 5

/-- A json11 `Json` value.  The header represents values through the
`JsonValue` class hierarchy (one subclass per kind); the closed kind set
makes it a sum type.  `Json::object` is a vector of key-value pairs
(`std::vector<std::pair<std::string, Json>>`, json11.hpp line 99), embedded
as a list of pairs.  The number payload is a `double` in the source,
modelled exactly as a rational (see the file comment). -/
inductive Json where
  | null
  | num (q : ℚ)
  | bool (b : Bool)
  | str (s : String)
  | arr (xs : List Json)
  | obj (kvs : List (String × Json))

/-- `Json::type()`: the kind tag of a value. -/
def Json.typeOf : Json → JType
  | .null => .NUL
  | .num _ => .NUMBER
  | .bool _ => .BOOL
  | .str _ => .STRING
  | .arr _ => .ARRAY
  | .obj _ => .OBJECT

/-- `Json::is_null()` (json11.hpp line 174). -/
def Json.is_null (j : Json) : Bool := j.typeOf = JType.NUL

/-- Modelled from the spec: the body of `Json::number_value` is not under
`src/`; per the spec, accessors are total and return the enclosed value if
this is a number, `0` otherwise. -/
def Json.number_value : Json → ℚ
  | .num q => q
  | _ => 0

/-- Modelled from the spec: the body of `Json::int_value` is not under
`src/`; per the spec, integer accessors truncate/convert from the stored
double at read time and return `0` for a non-number.  Truncation toward
zero, as a C++ floating-to-integral conversion does.  The model's codomain
is the unbounded `ℤ` — the mathematical value the conversion targets — but
the header declares the accessor as `int int_value() const;`
(json11.hpp line 185), so the C++ codomain is bounded by `cppIntMax`
below. -/
def Json.int_value (j : Json) : ℤ :=
  (j.number_value.num).tdiv (j.number_value.den)

/-- The largest value of the `int` codomain that json11.hpp line 185
declares for `int_value`: `int` is a 32-bit two's-complement type on the
platforms this library targets (the header's own comment, lines 24-27,
notes that the range ±2^53 "includes every 'int' on most systems", i.e.
`int` sits strictly inside it). -/
def cppIntMax : ℤ := 2 ^ 31 - 1

/-- Modelled from the spec: the body of `Json::bool_value` is not under
`src/`; it returns the enclosed value if this is a boolean, `false`
otherwise. -/
def Json.bool_value : Json → Bool
  | .bool b => b
  | _ => false

/-- Modelled from the spec: the body of `Json::string_value` is not under
`src/`; it returns the enclosed string if this is a string, `""`
otherwise. -/
def Json.string_value : Json → String
  | .str s => s
  | _ => ""

/-- Modelled from the spec: the body of `Json::array_items` is not under
`src/`; it returns the enclosed vector if this is an array, an empty vector
otherwise. -/
def Json.array_items : Json → List Json
  | .arr xs => xs
  | _ => []

/-- Modelled from the spec: the body of `Json::object_items` is not under
`src/`; it returns the enclosed object if this is an object, an empty one
otherwise. -/
def Json.object_items : Json → List (String × Json)
  | .obj kvs => kvs
  | _ => []

/-- Modelled from the spec: the body of `Json::operator[](size_t)` is not
under `src/`; it returns `arr[i]` if this is an array with `i` in range, and
the canonical `Json()` null value otherwise. -/
def Json.at_index (j : Json) (i : Nat) : Json :=
  match j with
  | .arr xs => xs.getD i .null
  | _ => .null

/-- `Json::object::find`, modelled from the spec: the body is not under
`src/`; lookup by key in the stored pair sequence (first match). -/
def Json.findKey (kvs : List (String × Json)) (k : String) : Option Json :=
  match kvs with
  | [] => none
  | (k', v) :: rest => if k' = k then some v else Json.findKey rest k

/-- Modelled from the spec: the body of `Json::operator[](const string&)` is
not under `src/`; it returns `obj[key]` if this is an object containing the
key, and the canonical `Json()` null value otherwise. -/
def Json.at_key (j : Json) (k : String) : Json :=
  match j with
  | .obj kvs => (Json.findKey kvs k).getD .null
  | _ => .null

/-- Modelled from the spec: the body of `Json::object::operator[]` is not
under `src/`; per the spec, re-inserting an existing key overwrites the
existing pair's value in place (order unchanged), or — if not found —
appends a new pair at the end. -/
def Json.setKey (kvs : List (String × Json)) (k : String) (v : Json) :
    List (String × Json) :=
  match kvs with
  | [] => [(k, v)]
  | (k', v') :: rest =>
    if k' = k then (k', v) :: rest else (k', v') :: Json.setKey rest k v

/-- The keys of an object, in stored order. -/
def Json.keysOf (kvs : List (String × Json)) : List String := kvs.map Prod.fst

/-- The compile-time type traits that `Json::is<T>()` (json11.hpp lines
237-247) consults about its type argument `T`: `std::is_same_v<T, array>`,
`std::is_same_v<T, object>`, `std::is_constructible_v<std::string, T>`,
`std::is_integral_v<T>`, `std::is_floating_point_v<T>` and
`std::is_same_v<T, bool>`.  A C++ type is embedded by the values of these
six predicates. -/
structure TypeTraits where
  sameArray : Bool
  sameObject : Bool
  stringConstructible : Bool
  integral : Bool
  floatingPoint : Bool
  sameBool : Bool

/-- `Json::is<T>()`, embedded from the header (json11.hpp lines 237-247):
a `switch` on `type()` returning the trait of `T` relevant to each kind,
and `false` outright in the `NUL` case. -/
def Json.is (tr : TypeTraits) (j : Json) : Bool :=
  match j.typeOf with
  | .ARRAY => tr.sameArray
  | .OBJECT => tr.sameObject
  | .STRING => tr.stringConstructible
  | .NUMBER => tr.integral || tr.floatingPoint
  | .BOOL => tr.sameBool
  | .NUL => false

/-- The error message `has_shape` produces for a missing or wrongly-typed
field: it names the offending field. -/
def Json.shapeErr (name : String) : String := "bad type for " ++ name

/-- Modelled from the spec: the body of `Json::has_shape` is not under
`src/`.  Per the spec it walks the declared (name, kind) list in declaration
order; on the first missing key or kind mismatch it fails with a message
naming the offending field. -/
def Json.shapeCheck (kvs : List (String × Json)) :
    List (String × JType) → Bool × String
  | [] => (true, "")
  | (name, t) :: rest =>
    match Json.findKey kvs name with
    | some v =>
      if v.typeOf = t then Json.shapeCheck kvs rest else (false, Json.shapeErr name)
    | none => (false, Json.shapeErr name)

/-- Modelled from the spec: the body of `Json::has_shape` is not under
`src/`.  It succeeds only if the value is an object whose every declared
field is present with the declared kind. -/
def Json.has_shape (j : Json) (types : List (String × JType)) : Bool × String :=
  match j with
  | .obj kvs => Json.shapeCheck kvs types
  | _ => (false, "expected JSON object")

mutual

/-- `Json::operator==`, modelled from the spec: the bodies of `operator==`
and `object::operator==` are not under `src/`.  Two values are equal iff
they have the same kind and structurally equal contents; array equality is
element-wise and order-sensitive; object equality is per-key equality
regardless of insertion order. -/
def Json.beq (a b : Json) : Bool :=
  match a, b with
  | .null, .null => true
  | .num x, .num y => decide (x = y)
  | .bool x, .bool y => x == y
  | .str x, .str y => x == y
  | .arr xs, .arr ys => Json.beqList xs ys
  | .obj x, .obj y => x.length == y.length && Json.beqSub x y
  | _, _ => false
termination_by sizeOf a

/-- Element-wise, order-sensitive equality of arrays. -/
def Json.beqList (xs ys : List Json) : Bool :=
  match xs, ys with
  | [], [] => true
  | x :: xs', y :: ys' => Json.beq x y && Json.beqList xs' ys'
  | _, _ => false
termination_by sizeOf xs

/-- Every pair of the first object is found in the second, by key, with an
equal value. -/
def Json.beqSub (a b : List (String × Json)) : Bool :=
  match a with
  | [] => true
  | (k, v) :: rest =>
    (match Json.findKey b k with
     | some w => Json.beq v w
     | none => false) && Json.beqSub rest b
termination_by sizeOf a

end

mutual

/-- `Json::operator<`, modelled from the spec: the bodies of `operator<`,
`object::operator<` and the `less` virtuals are not under `src/`.  Per the
spec, values of differing kinds are ordered by kind rank — the `Json::Type`
enumerator values of the header, in C++ `m_ptr->type() < rhs.m_ptr->type()`
— and values of equal kind recursively by contents: numeric comparison,
lexicographic string comparison (`std::string::operator<`), lexicographic
element-wise array comparison (`std::vector::operator<`), lexicographic
pair comparison for objects by key then value, in stored order. -/
def Json.jlt (a b : Json) : Bool :=
  match a, b with
  | .num x, .num y => decide (x < y)
  | .bool x, .bool y => !x && y
  | .str x, .str y => decide (x < y)
  | .arr xs, .arr ys => Json.jltList xs ys
  | .obj x, .obj y => Json.jltPairs x y
  | a', b' => decide (a'.typeOf.rank < b'.typeOf.rank)
termination_by sizeOf a + sizeOf b

/-- Lexicographic array comparison, as `std::lexicographical_compare` on
`std::vector<Json>`: strictly ordered heads decide; tied heads recurse; a
proper prefix is smaller. -/
def Json.jltList (xs ys : List Json) : Bool :=
  match xs, ys with
  | _ :: _, [] => false
  | [], [] => false
  | [], _ :: _ => true
  | x :: xs', y :: ys' =>
    if Json.jlt x y then true
    else if Json.jlt y x then false
    else Json.jltList xs' ys'
termination_by sizeOf xs + sizeOf ys

/-- Lexicographic object comparison in stored order, as
`std::vector<std::pair<std::string, Json>>::operator<`, each pair compared
key first, value second. -/
def Json.jltPairs (a b : List (String × Json)) : Bool :=
  match a, b with
  | _ :: _, [] => false
  | [], [] => false
  | [], _ :: _ => true
  | (k1, v1) :: ps, (k2, v2) :: qs =>
    if k1 < k2 then true
    else if k2 < k1 then false
    else if Json.jlt v1 v2 then true
    else if Json.jlt v2 v1 then false
    else Json.jltPairs ps qs
termination_by sizeOf a + sizeOf b

end

/-- `Json::operator!=` (json11.hpp line 294). -/
def Json.jne (a b : Json) : Bool := !(Json.beq a b)

/-- `Json::operator<=` (json11.hpp line 295). -/
def Json.jle (a b : Json) : Bool := !(Json.jlt b a)

/-- `Json::operator>` (json11.hpp line 296). -/
def Json.jgt (a b : Json) : Bool := Json.jlt b a

/-- `Json::operator>=` (json11.hpp line 297). -/
def Json.jge (a b : Json) : Bool := !(Json.jlt a b)

/-- The `JsonParse` parse-strategy enumeration (json11.hpp lines 74-76). -/
inductive JsonParse where
  | STANDARD
  | COMMENTS
deriving DecidableEq, Repr

/-- A parse error before formatting: a message and the length of the input
remaining at the point of failure (from which the 1-based line and column
are computed at top level). -/
structure PErr where
  msg : String
  remLen : Nat

/-- The four JSON whitespace characters. -/
def isWsChar (c : Char) : Bool := c == ' ' || c == '\t' || (c == '\n' || c == '\r')

/-- State of the whitespace-and-comment skipper: at top level, just after a
`/`, inside a line comment, inside a block comment, or inside a block
comment just after a `*`. -/
inductive WsSt where
  | top
  | slash
  | line
  | block
  | blockStar

/-- Modelled from the spec: the parser's `consume_garbage`/`consume_comment`
are not under `src/`.  Skips whitespace, and in `COMMENTS` mode also `//`
line comments and `/* */` block comments, as a character-at-a-time state
machine.  A lone `/` or an unterminated block comment is an error. -/
def skipC (m : JsonParse) : WsSt → List Char → Except PErr (List Char)
  | .top, [] => .ok []
  | .top, c :: r =>
    if isWsChar c then skipC m .top r
    else if c == '/' && m == JsonParse.COMMENTS then skipC m .slash r
    else .ok (c :: r)
  | .slash, '/' :: r => skipC m .line r
  | .slash, '*' :: r => skipC m .block r
  | .slash, r => .error ⟨"malformed comment", r.length⟩
  | .line, [] => .ok []
  | .line, '\n' :: r => skipC m .top r
  | .line, _ :: r => skipC m .line r
  | .block, [] => .error ⟨"unexpected end of input inside comment", 0⟩
  | .block, '*' :: r => skipC m .blockStar r
  | .block, _ :: r => skipC m .block r
  | .blockStar, [] => .error ⟨"unexpected end of input inside comment", 0⟩
  | .blockStar, '/' :: r => skipC m .top r
  | .blockStar, '*' :: r => skipC m .blockStar r
  | .blockStar, _ :: r => skipC m .block r

/-- Skip whitespace (and, in `COMMENTS` mode, comments) between tokens. -/
def skipWs (m : JsonParse) (s : List Char) : Except PErr (List Char) :=
  skipC m .top s

/-- Decimal digit test, as the parser's `in_range(ch, '0', '9')`. -/
def isDigitChar (c : Char) : Bool := '0' ≤ c && c ≤ '9'

/-- Split off the longest leading run of decimal digits. -/
def takeDigits : List Char → List Char × List Char
  | [] => ([], [])
  | c :: r =>
    if isDigitChar c then
      let p := takeDigits r
      (c :: p.1, p.2)
    else ([], c :: r)

/-- The natural number denoted by a digit-character run, most significant
digit first. -/
def digitsNat (ds : List Char) : Nat :=
  ds.foldl (fun a c => a * 10 + (c.toNat - 48)) 0

/-- Modelled from the spec: assembling a parsed number from its sign,
integer part, fractional digits (value and count) and exponent (sign and
magnitude).  The source converts the textual number to a `double`; the
model computes the denoted rational exactly. -/
def mkNumber (neg : Bool) (ip fp flen : Nat) (esign : Bool) (e : Nat) : ℚ :=
  let mag : ℚ := ((ip * 10 ^ flen + fp : ℕ) : ℚ) / (10 : ℚ) ^ flen
  let scaled : ℚ := if esign then mag / (10 : ℚ) ^ e else mag * (10 : ℚ) ^ e
  if neg then -scaled else scaled

/-- Parse an optional fractional part: `.` followed by at least one digit,
or nothing.  Returns the fraction's digits as a value and a digit count. -/
def parseFrac : List Char → Except PErr (Nat × Nat × List Char)
  | '.' :: r =>
    (match takeDigits r with
     | ([], _) => .error ⟨"at least one digit required in fractional part", r.length⟩
     | (ds, r2) => .ok (digitsNat ds, ds.length, r2))
  | s => .ok (0, 0, s)

/-- Parse an optional exponent part: `e` or `E`, an optional sign, and at
least one digit.  Returns the exponent's sign and magnitude. -/
def parseExp : List Char → Except PErr (Bool × Nat × List Char)
  | c :: r =>
    if c == 'e' || c == 'E' then
      let p := match r with
        | '+' :: r2 => (false, r2)
        | '-' :: r2 => (true, r2)
        | _ => (false, r)
      match takeDigits p.2 with
      | ([], _) => .error ⟨"at least one digit required in exponent", p.2.length⟩
      | (ds, r2) => .ok (p.1, digitsNat ds, r2)
    else .ok (false, 0, c :: r)
  | [] => .ok (false, 0, [])

/-- Modelled from the spec: `parse_number` is not under `src/`.  An optional
leading `-`, an integer part with no leading zero except the literal `0`,
an optional fractional part, an optional exponent; malformed numeric syntax
is a parse error. -/
def parseNum (s : List Char) : Except PErr (ℚ × List Char) :=
  let pneg : Bool × List Char := match s with
    | '-' :: r => (true, r)
    | _ => (false, s)
  match takeDigits pneg.2 with
  | ([], _) => .error ⟨"invalid number", pneg.2.length⟩
  | (d :: ds, r1) =>
    if d == '0' && !ds.isEmpty then
      .error ⟨"leading 0s not permitted in numbers", pneg.2.length⟩
    else match parseFrac r1 with
    | .error e => .error e
    | .ok (fp, flen, r2) =>
      match parseExp r2 with
      | .error e => .error e
      | .ok (esign, e, r3) =>
        .ok (mkNumber pneg.1 (digitsNat (d :: ds)) fp flen esign e, r3)

/-- The value of a hexadecimal digit character, accepting both cases. -/
def hexVal (c : Char) : Option Nat :=
  if '0' ≤ c && c ≤ '9' then some (c.toNat - 48)
  else if 'a' ≤ c && c ≤ 'f' then some (c.toNat - 87)
  else if 'A' ≤ c && c ≤ 'F' then some (c.toNat - 55)
  else none

/-- The character denoted by a single-character escape (`\" \\ \/ \b \f \n
\r \t`), if valid. -/
def escDecode : Char → Option Char
  | '"' => some '"'
  | '\\' => some '\\'
  | '/' => some '/'
  | 'b' => some (Char.ofNat 8)
  | 'f' => some (Char.ofNat 12)
  | 'n' => some '\n'
  | 'r' => some (Char.ofNat 13)
  | 't' => some '\t'
  | _ => none

/-- Modelled from the spec: `parse_string` is not under `src/`.  Reads a
string body after the opening quote: standard JSON escapes, `\uXXXX` with
surrogate-pair combination for code points above U+FFFF; an unterminated
string, an invalid escape, an unescaped control character, or an
invalid/unpaired surrogate is a parse error. -/
def parseStrBody : List Char → Except PErr (List Char × List Char)
  | [] => .error ⟨"unexpected end of input in string", 0⟩
  | '"' :: r => .ok ([], r)
  | '\\' :: 'u' :: a :: b :: c :: d :: r =>
    (match hexVal a, hexVal b, hexVal c, hexVal d with
     | some va, some vb, some vc, some vd =>
       let cp := ((va * 16 + vb) * 16 + vc) * 16 + vd
       if cp < 0xD800 || 0xDFFF < cp then
         match parseStrBody r with
         | .ok (cs, rest) => .ok (Char.ofNat cp :: cs, rest)
         | .error e => .error e
       else if cp ≤ 0xDBFF then
         match r with
         | '\\' :: 'u' :: a2 :: b2 :: c2 :: d2 :: r2 =>
           (match hexVal a2, hexVal b2, hexVal c2, hexVal d2 with
            | some va2, some vb2, some vc2, some vd2 =>
              let cp2 := ((va2 * 16 + vb2) * 16 + vc2) * 16 + vd2
              if 0xDC00 ≤ cp2 && cp2 ≤ 0xDFFF then
                match parseStrBody r2 with
                | .ok (cs, rest) =>
                  .ok (Char.ofNat (0x10000 + (cp - 0xD800) * 0x400 + (cp2 - 0xDC00)) :: cs, rest)
                | .error e => .error e
              else .error ⟨"invalid low surrogate in string", r2.length⟩
            | _, _, _, _ => .error ⟨"invalid hex digits in unicode escape", r.length⟩)
         | _ => .error ⟨"unpaired high surrogate in string", r.length⟩
       else .error ⟨"unpaired low surrogate in string", r.length⟩
     | _, _, _, _ => .error ⟨"invalid hex digits in unicode escape", r.length⟩)
  | '\\' :: c :: r =>
    (match escDecode c with
     | some ec =>
       match parseStrBody r with
       | .ok (cs, rest) => .ok (ec :: cs, rest)
       | .error e => .error e
     | none => .error ⟨"invalid escape character in string", r.length⟩)
  | c :: r =>
    if c.toNat < 0x20 then
      .error ⟨"unescaped control character in string", r.length⟩
    else
      match parseStrBody r with
      | .ok (cs, rest) => .ok (c :: cs, rest)
      | .error e => .error e

/-- Modelled from the spec: the parser's maximum nesting depth
(`max_depth = 200` in json11); deeper input fails gracefully with a parse
error. -/
def maxNestingDepth : Nat := 200

mutual

/-- Modelled from the spec: `parse_json` is not under `src/`.  One value of
the grammar `value := object | array | string | number | true | false |
null`, by recursive descent, dispatching on the first character after
whitespace (and comments, in `COMMENTS` mode).  `fuel` makes the recursion
structural and is chosen large enough at top level; `depth` is the
remaining nesting allowance. -/
def parseValue (m : JsonParse) : Nat → Nat → List Char → Except PErr (Json × List Char)
  | 0, _, s => .error ⟨"parser out of fuel", s.length⟩
  | _ + 1, 0, s => .error ⟨"exceeded maximum nesting depth", s.length⟩
  | fuel + 1, depth + 1, s =>
    match skipWs m s with
    | .error e => .error e
    | .ok ('n' :: 'u' :: 'l' :: 'l' :: r) => .ok (.null, r)
    | .ok ('t' :: 'r' :: 'u' :: 'e' :: r) => .ok (.bool true, r)
    | .ok ('f' :: 'a' :: 'l' :: 's' :: 'e' :: r) => .ok (.bool false, r)
    | .ok ('"' :: r) =>
      (match parseStrBody r with
       | .ok (cs, rest) => .ok (.str (String.mk cs), rest)
       | .error e => .error e)
    | .ok ('[' :: r) =>
      (match skipWs m r with
       | .error e => .error e
       | .ok (']' :: r2) => .ok (.arr [], r2)
       | .ok s2 =>
         match parseElems m fuel depth s2 with
         | .ok (xs, rest) => .ok (.arr xs, rest)
         | .error e => .error e)
    | .ok ('{' :: r) =>
      (match skipWs m r with
       | .error e => .error e
       | .ok ('}' :: r2) => .ok (.obj [], r2)
       | .ok s2 =>
         match parseMembers m fuel depth [] s2 with
         | .ok (kvs, rest) => .ok (.obj kvs, rest)
         | .error e => .error e)
    | .ok (c :: r) =>
      if c == '-' || isDigitChar c then
        match parseNum (c :: r) with
        | .ok (q, rest) => .ok (.num q, rest)
        | .error e => .error e
      else .error ⟨"expected JSON value", r.length + 1⟩
    | .ok [] => .error ⟨"unexpected end of input", 0⟩

/-- Modelled from the spec: the comma-separated element list of a nonempty
array, each element parsed at one deeper nesting level, ending at `]`. -/
def parseElems (m : JsonParse) : Nat → Nat → List Char → Except PErr (List Json × List Char)
  | 0, _, s => .error ⟨"parser out of fuel", s.length⟩
  | fuel + 1, depth, s =>
    match parseValue m fuel depth s with
    | .error e => .error e
    | .ok (v, r) =>
      match skipWs m r with
      | .error e => .error e
      | .ok (']' :: r2) => .ok ([v], r2)
      | .ok (',' :: r2) =>
        (match parseElems m fuel depth r2 with
         | .ok (vs, rest) => .ok (v :: vs, rest)
         | .error e => .error e)
      | .ok r2 => .error ⟨"expected comma or closing bracket in array", r2.length⟩

/-- Modelled from the spec: the comma-separated member list of a nonempty
object, ending at `}`.  Each parsed pair is added to the accumulated object
with `Json.setKey`, so a duplicate key overwrites the earlier pair's value
in place. -/
def parseMembers (m : JsonParse) :
    Nat → Nat → List (String × Json) → List Char → Except PErr (List (String × Json) × List Char)
  | 0, _, _, s => .error ⟨"parser out of fuel", s.length⟩
  | fuel + 1, depth, acc, s =>
    match skipWs m s with
    | .error e => .error e
    | .ok ('"' :: r) =>
      (match parseStrBody r with
       | .error e => .error e
       | .ok (kcs, r1) =>
         match skipWs m r1 with
         | .error e => .error e
         | .ok (':' :: r2) =>
           (match parseValue m fuel depth r2 with
            | .error e => .error e
            | .ok (v, r3) =>
              match skipWs m r3 with
              | .error e => .error e
              | .ok ('}' :: r4) => .ok (Json.setKey acc (String.mk kcs) v, r4)
              | .ok (',' :: r4) => parseMembers m fuel depth (Json.setKey acc (String.mk kcs) v) r4
              | .ok r4 => .error ⟨"expected comma or closing brace in object", r4.length⟩)
         | .ok r2 => .error ⟨"expected colon in object", r2.length⟩)
    | .ok r' => .error ⟨"expected string key in object", r'.length⟩

end

/-- One top-level value: the whole-input parse before the trailing-garbage
check, with ample fuel. -/
def parseTop (m : JsonParse) (s : List Char) : Except PErr (Json × List Char) :=
  parseValue m (s.length + 1) maxNestingDepth s

/-- Format a parse error as a human-readable message with the 1-based line
and column of the failure position. -/
def fmtErr (orig : List Char) (e : PErr) : String :=
  let consumed := orig.length - e.remLen
  let pre := orig.take consumed
  let line := 1 + pre.countP (fun c => c == '\n')
  let col := (pre.reverse.takeWhile (fun c => c != '\n')).length + 1
  e.msg ++ " at line " ++ toString line ++ ", column " ++ toString col

/-- Modelled from the spec: the body of `Json::parse` is not under `src/`.
On success it returns the parsed value and leaves the error string empty;
on any failure — including trailing garbage after the top-level value — it
returns the canonical null value and a position-annotated error message. -/
def Json.parse (t : String) (m : JsonParse) : Json × String :=
  match parseTop m t.data with
  | .error e => (.null, fmtErr t.data e)
  | .ok (v, r) =>
    match skipWs m r with
    | .error e => (.null, fmtErr t.data e)
    | .ok [] => (v, "")
    | .ok r2 => (.null, fmtErr t.data ⟨"unexpected trailing characters", r2.length⟩)

/-- `Json::try_parse`, modelled from the spec: the body is not under `src/`.
It parses the same grammar as `Json::parse` and differs only in failure
signaling: it raises (here: returns `.error`) exactly when `parse` reports
a non-empty error string, and returns `parse`'s value otherwise. -/
def Json.try_parse (t : String) (m : JsonParse) : Except String Json :=
  let p := Json.parse t m
  if p.2 = "" then .ok p.1 else .error p.2

/-- The hexadecimal digit character for `n < 16`, lowercase. -/
def hexDigitChar (n : Nat) : Char :=
  if n < 10 then Char.ofNat (48 + n) else Char.ofNat (87 + n)

/-- Modelled from the spec: the serializer's string escaping is not under
`src/`.  `"` and `\` are escaped, control characters as `\b \f \n \r \t` or
`\u00XX`, and every other character passes through unchanged. -/
def escapeChar (c : Char) : List Char :=
  if c == '"' then ['\\', '"']
  else if c == '\\' then ['\\', '\\']
  else if c == Char.ofNat 8 then ['\\', 'b']
  else if c == Char.ofNat 12 then ['\\', 'f']
  else if c == '\n' then ['\\', 'n']
  else if c == Char.ofNat 13 then ['\\', 'r']
  else if c == '\t' then ['\\', 't']
  else if c.toNat < 0x20 then
    '\\' :: 'u' :: '0' :: '0' :: hexDigitChar (c.toNat / 16) :: [hexDigitChar (c.toNat % 16)]
  else [c]

/-- JSON-escape a whole character sequence. -/
def escapeList : List Char → List Char
  | [] => []
  | c :: r => escapeChar c ++ escapeList r

/-- A rendered JSON string: quoted and escaped. -/
def renderStr (s : String) : List Char :=
  '"' :: (escapeList s.data ++ ['"'])

/-- The multiplicity of `p` in `n`: how many times `p` divides `n`. -/
def countFactor (p n : Nat) : Nat :=
  if h : 2 ≤ p ∧ n ≠ 0 ∧ p ∣ n then countFactor p (n / p) + 1 else 0
termination_by n
decreasing_by exact Nat.div_lt_self (Nat.pos_of_ne_zero h.2.1) h.1

/-- The decimal digit characters of `n`, most significant first (`0` renders
as `"0"`). -/
def natDigits (n : Nat) : List Char :=
  if n = 0 then ['0'] else (Nat.digits 10 n).reverse.map Nat.digitChar

/-- Left-pad a digit run with zeros to length `k`. -/
def padZeros (k : Nat) (ds : List Char) : List Char :=
  List.replicate (k - ds.length) '0' ++ ds

/-- Modelled from the spec: the serializer's number rendering is not under
`src/`.  A nonnegative number whose double is integral renders as plain
digits with no decimal point; otherwise as integer digits, a point, and
exactly as many fractional digits as the value needs (trailing zeros only
as padding for small magnitudes).  On the exact rational model the digit
count is recovered from the denominator's factors of 2 and 5. -/
def renderPosQ (q : ℚ) : List Char :=
  let d := q.den
  let k := max (countFactor 2 d) (countFactor 5 d)
  if k = 0 then natDigits q.num.natAbs
  else
    let scaled := q.num.natAbs * 10 ^ k / d
    natDigits (scaled / 10 ^ k) ++ '.' :: padZeros k (natDigits (scaled % 10 ^ k))

/-- Modelled from the spec: number rendering with the sign. -/
def renderQNum (q : ℚ) : List Char :=
  if q < 0 then '-' :: renderPosQ (-q) else renderPosQ q

mutual

/-- Modelled from the spec: the body of `Json::dump(string&)` is not under
`src/`.  Canonical single-line rendering: `null`, `true`/`false`, numbers,
quoted escaped strings, `[`-comma-joined-`]` arrays and
`{`-comma-joined-`}` objects in stored insertion order. -/
def Json.dumpChars : Json → List Char
  | .null => "null".data
  | .bool true => "true".data
  | .bool false => "false".data
  | .num q => renderQNum q
  | .str s => renderStr s
  | .arr xs => '[' :: (Json.dumpElems xs ++ [']'])
  | .obj kvs => '{' :: (Json.dumpMembers kvs ++ ['}'])

/-- Comma-joined renderings of array elements. -/
def Json.dumpElems : List Json → List Char
  | [] => []
  | [x] => Json.dumpChars x
  | x :: y :: rest => Json.dumpChars x ++ ',' :: Json.dumpElems (y :: rest)

/-- Comma-joined `"key":value` renderings of object members, in stored
order. -/
def Json.dumpMembers : List (String × Json) → List Char
  | [] => []
  | [(k, v)] => renderStr k ++ ':' :: Json.dumpChars v
  | (k, v) :: p :: rest =>
    renderStr k ++ ':' :: (Json.dumpChars v ++ ',' :: Json.dumpMembers (p :: rest))

end

/-- `Json::dump()` (json11.hpp lines 263-267): serialize to a fresh
string. -/
def Json.dump (j : Json) : String := String.mk (Json.dumpChars j)

/-- A rational that some decimal literal denotes exactly: an integer divided
by a power of ten.  Every number the parser produces has this form. -/
def DecimalRat (q : ℚ) : Prop := ∃ (n : ℤ) (k : ℕ), q = (n : ℚ) / 10 ^ k

/-- The invariant of parser-produced values: numbers are decimal rationals
and object keys are pairwise distinct (the insert-or-overwrite object build
never creates duplicates), recursively. -/
inductive JInv : Json → Prop where
  | null : JInv .null
  | num : ∀ q, DecimalRat q → JInv (.num q)
  | bool : ∀ b, JInv (.bool b)
  | str : ∀ s, JInv (.str s)
  | arr : ∀ xs, (∀ x ∈ xs, JInv x) → JInv (.arr xs)
  | obj : ∀ kvs, (Json.keysOf kvs).Nodup → (∀ p ∈ kvs, JInv p.2) → JInv (.obj kvs)

/-- Optional-value equality with `Json::operator==` on the payloads: used to
compare the results of key lookups in two objects. -/
def optValBeq : Option Json → Option Json → Bool
  | none, none => true
  | some v, some w => Json.beq v w
  | _, _ => false

/-- The key-uniqueness part of the value invariant: object keys are pairwise
distinct, recursively.  The `Json::object` data model keeps keys unique
(insertion overwrites an existing key), so every value built through the
object interface satisfies this. -/
inductive KeysNodup : Json → Prop where
  | null : KeysNodup .null
  | num : ∀ q, KeysNodup (.num q)
  | bool : ∀ b, KeysNodup (.bool b)
  | str : ∀ s, KeysNodup (.str s)
  | arr : ∀ xs, (∀ x ∈ xs, KeysNodup x) → KeysNodup (.arr xs)
  | obj : ∀ kvs, (Json.keysOf kvs).Nodup → (∀ p ∈ kvs, KeysNodup p.2) →
      KeysNodup (.obj kvs)

mutual

/-- Nesting depth of a value as the parser counts it: one level per value,
arrays and objects one more than their deepest child. -/
def Json.vdepth : Json → Nat
  | .null => 1
  | .num _ => 1
  | .bool _ => 1
  | .str _ => 1
  | .arr xs => Json.vdepthList xs + 1
  | .obj kvs => Json.vdepthMembers kvs + 1

/-- The largest depth among array elements. -/
def Json.vdepthList : List Json → Nat
  | [] => 0
  | x :: rest => max (Json.vdepth x) (Json.vdepthList rest)

/-- The largest depth among object member values. -/
def Json.vdepthMembers : List (String × Json) → Nat
  | [] => 0
  | p :: rest => max (Json.vdepth p.2) (Json.vdepthMembers rest)

end

/-- A remainder that cannot extend a rendered value: empty, or starting
with one of the delimiters the grammar puts after a value (`,`, `]`,
`}`). -/
def stopTok : List Char → Bool
  | [] => true
  | c :: _ => c == ',' || c == ']' || c == '}'

/-! ## Theorems -/

theorem keysOf_cons (k1 : String) (v1 : Json) (rest : List (String × Json)) :
    Json.keysOf ((k1, v1) :: rest) = k1 :: Json.keysOf rest := rfl

theorem setKey_mem_spec (kvs : List (String × Json)) (k : String) (v : Json)
    (hk : k ∈ Json.keysOf kvs) :
    Json.keysOf (Json.setKey kvs k v) = Json.keysOf kvs ∧
    Json.findKey (Json.setKey kvs k v) k = some v ∧
    (∀ k', k' ≠ k → Json.findKey (Json.setKey kvs k v) k' = Json.findKey kvs k') := by
  induction kvs with
  | nil => simp [Json.keysOf] at hk
  | cons p rest ih =>
    obtain ⟨k1, v1⟩ := p
    rw [keysOf_cons, List.mem_cons] at hk
    by_cases hkk : k1 = k
    · subst hkk
      refine ⟨by simp [Json.setKey, Json.keysOf], by simp [Json.setKey, Json.findKey], ?_⟩
      intro k' hne
      simp only [Json.setKey, if_pos rfl, Json.findKey]
      rw [if_neg (fun h => hne h.symm), if_neg (fun h => hne h.symm)]
    · have hk' : k ∈ Json.keysOf rest := hk.resolve_left (fun h => hkk h.symm)
      obtain ⟨ihkeys, ihfind, ihother⟩ := ih hk'
      refine ⟨?_, ?_, ?_⟩
      · simp only [Json.setKey, if_neg hkk, keysOf_cons, ihkeys]
      · simp [Json.setKey, if_neg hkk, Json.findKey, hkk, ihfind]
      · intro k' hne
        simp only [Json.setKey, if_neg hkk, Json.findKey]
        by_cases h1 : k1 = k'
        · simp [h1]
        · simp [h1, ihother k' hne]

theorem setKey_not_mem_spec (kvs : List (String × Json)) (k : String) (v : Json)
    (hk : k ∉ Json.keysOf kvs) :
    Json.setKey kvs k v = kvs ++ [(k, v)] := by
  induction kvs with
  | nil => simp [Json.setKey]
  | cons p rest ih =>
    obtain ⟨k1, v1⟩ := p
    rw [keysOf_cons, List.mem_cons] at hk
    push_neg at hk
    obtain ⟨hne, hk'⟩ := hk
    have hne' : ¬ k1 = k := fun h => hne h.symm
    simp [Json.setKey, if_neg hne', ih hk']

/-- C2: assigning through `object::operator[]` at a key that is already
present overwrites that pair's value in place — the key sequence, and hence
the iteration and serialization position of the pair, is unchanged, the
looked-up value is the new one, and every other key's binding is untouched
— while at an absent key the new pair is appended at the end.  In
particular overwriting `"a"` with `3` in `{"a":1,"b":2}` yields
`{"a":3,"b":2}`. -/
theorem object_subscript_assign_spec :
    (∀ (kvs : List (String × Json)) (k : String) (v : Json),
      k ∈ Json.keysOf kvs →
        Json.keysOf (Json.setKey kvs k v) = Json.keysOf kvs ∧
        Json.findKey (Json.setKey kvs k v) k = some v ∧
        (∀ k', k' ≠ k → Json.findKey (Json.setKey kvs k v) k' = Json.findKey kvs k')) ∧
    (∀ (kvs : List (String × Json)) (k : String) (v : Json),
      k ∉ Json.keysOf kvs → Json.setKey kvs k v = kvs ++ [(k, v)]) ∧
    Json.setKey [("a", Json.num 1), ("b", Json.num 2)] "a" (Json.num 3)
      = [("a", Json.num 3), ("b", Json.num 2)] := by
  refine ⟨setKey_mem_spec, setKey_not_mem_spec, ?_⟩
  simp [Json.setKey]

/-- C2 witness: the general clauses instantiated on the spec's own example
object `{"a":1,"b":2}`. -/
theorem object_subscript_assign_witness :
    Json.keysOf (Json.setKey [("a", Json.num 1), ("b", Json.num 2)] "a" (Json.num 3))
      = Json.keysOf [("a", Json.num 1), ("b", Json.num 2)] ∧
    Json.findKey (Json.setKey [("a", Json.num 1), ("b", Json.num 2)] "a" (Json.num 3)) "a"
      = some (Json.num 3) ∧
    Json.setKey [("b", Json.num 2)] "c" (Json.num 3)
      = [("b", Json.num 2), ("c", Json.num 3)] := by
  have h1 := object_subscript_assign_spec.1 [("a", Json.num 1), ("b", Json.num 2)] "a"
    (Json.num 3) (by simp [Json.keysOf])
  have h2 := object_subscript_assign_spec.2.1 [("b", Json.num 2)] "c"
    (Json.num 3) (by simp [Json.keysOf])
  exact ⟨h1.1, h1.2.1, h2⟩

/-- C5: every wrong-kind accessor returns its documented default —
`number_value`/`int_value` give `0`, `bool_value` gives `false`,
`string_value` gives `""`, `array_items`/`object_items` give empty
containers — and indexing a non-array, an out-of-range position, a
non-object or a missing key gives the canonical null value.  All these
operations are total functions: none can fail. -/
theorem soft_accessor_defaults :
    (∀ j : Json, j.typeOf ≠ JType.NUMBER → j.number_value = 0 ∧ j.int_value = 0) ∧
    (∀ j : Json, j.typeOf ≠ JType.BOOL → j.bool_value = false) ∧
    (∀ j : Json, j.typeOf ≠ JType.STRING → j.string_value = "") ∧
    (∀ j : Json, j.typeOf ≠ JType.ARRAY → j.array_items = []) ∧
    (∀ j : Json, j.typeOf ≠ JType.OBJECT → j.object_items = []) ∧
    (∀ (j : Json) (i : Nat), j.typeOf ≠ JType.ARRAY → j.at_index i = Json.null) ∧
    (∀ (xs : List Json) (i : Nat), xs.length ≤ i → (Json.arr xs).at_index i = Json.null) ∧
    (∀ (j : Json) (k : String), j.typeOf ≠ JType.OBJECT → j.at_key k = Json.null) ∧
    (∀ (kvs : List (String × Json)) (k : String),
      Json.findKey kvs k = none → (Json.obj kvs).at_key k = Json.null) := by
  refine ⟨?_, ?_, ?_, ?_, ?_, ?_, ?_, ?_, ?_⟩
  · intro j h
    cases j <;> simp_all [Json.typeOf, Json.number_value, Json.int_value]
  · intro j h
    cases j <;> simp_all [Json.typeOf, Json.bool_value]
  · intro j h
    cases j <;> simp_all [Json.typeOf, Json.string_value]
  · intro j h
    cases j <;> simp_all [Json.typeOf, Json.array_items]
  · intro j h
    cases j <;> simp_all [Json.typeOf, Json.object_items]
  · intro j i h
    cases j <;> simp_all [Json.typeOf, Json.at_index]
  · intro xs i h
    simp [Json.at_index, List.getD_eq_getElem?_getD, List.getElem?_eq_none h]
  · intro j k h
    cases j <;> simp_all [Json.typeOf, Json.at_key]
  · intro kvs k h
    simp [Json.at_key, h]

/-- C5 witness: the spec's own examples — `array_items` on the string value
`"hello"` is empty, and indexing the number `5` with the key `"x"` is the
canonical null. -/
theorem soft_accessor_defaults_witness :
    (Json.str "hello").array_items = [] ∧ (Json.num 5).at_key "x" = Json.null := by
  refine ⟨soft_accessor_defaults.2.2.2.1 (Json.str "hello") ?_,
    soft_accessor_defaults.2.2.2.2.2.2.2.1 (Json.num 5) "x" ?_⟩
  · simp [Json.typeOf]
  · simp [Json.typeOf]

/-- C10: `Json::is<T>()` on a null-kind value returns `false` for every
type argument `T` — i.e. for every possible combination of the type traits
the template consults, including those of `nullptr_t` — even though
`is_null()` on the same value returns `true`. -/
theorem is_template_false_on_null :
    ∀ j : Json, j.typeOf = JType.NUL →
      j.is_null = true ∧ ∀ tr : TypeTraits, j.is tr = false := by
  intro j h
  cases j <;> simp_all [Json.typeOf]
  exact ⟨rfl, fun tr => rfl⟩

/-- C10 witness: instantiated at the null value, with the traits of
`std::nullptr_t` (constructible to `std::string`, nothing else). -/
theorem is_template_false_on_null_witness :
    Json.is_null Json.null = true ∧
    Json.is ⟨false, false, true, false, false, false⟩ Json.null = false := by
  obtain ⟨h1, h2⟩ := is_template_false_on_null Json.null rfl
  exact ⟨h1, h2 _⟩

theorem shapeCheck_true_iff (kvs : List (String × Json)) :
    ∀ types : List (String × JType),
      (Json.shapeCheck kvs types).1 = true ↔
        (∀ p ∈ types, ∃ v, Json.findKey kvs p.1 = some v ∧ v.typeOf = p.2) := by
  intro types
  induction types with
  | nil => simp [Json.shapeCheck]
  | cons p rest ih =>
    obtain ⟨name, t⟩ := p
    simp only [Json.shapeCheck]
    cases hfind : Json.findKey kvs name with
    | none =>
      simp only [List.mem_cons, forall_eq_or_imp]
      constructor
      · intro h
        exact absurd h (by simp)
      · rintro ⟨⟨v, hv, _⟩, _⟩
        rw [hfind] at hv
        exact absurd hv (by simp)
    | some v =>
      by_cases ht : v.typeOf = t
      · simp only [if_pos ht, ih, List.mem_cons, forall_eq_or_imp]
        constructor
        · intro h
          exact ⟨⟨v, hfind, ht⟩, h⟩
        · exact fun h => h.2
      · simp only [if_neg ht, List.mem_cons, forall_eq_or_imp]
        constructor
        · intro h
          exact absurd h (by simp)
        · rintro ⟨⟨w, hw, hwt⟩, _⟩
          rw [hfind] at hw
          cases hw
          exact absurd hwt ht

theorem shapeCheck_first_failure (kvs : List (String × Json)) :
    ∀ (pre : List (String × JType)) (name : String) (t : JType)
      (post : List (String × JType)),
      (∀ p ∈ pre, ∃ v, Json.findKey kvs p.1 = some v ∧ v.typeOf = p.2) →
      (∀ v, Json.findKey kvs name = some v → v.typeOf ≠ t) →
      Json.shapeCheck kvs (pre ++ (name, t) :: post) = (false, Json.shapeErr name) := by
  intro pre
  induction pre with
  | nil =>
    intro name t post _ hbad
    simp only [List.nil_append, Json.shapeCheck]
    cases hfind : Json.findKey kvs name with
    | none => rfl
    | some v => simp [hbad v hfind]
  | cons p rest ih =>
    intro name t post hpre hbad
    obtain ⟨n1, t1⟩ := p
    obtain ⟨v1, hv1, hvt1⟩ := hpre (n1, t1) (by simp)
    simp only [List.cons_append, Json.shapeCheck, hv1, if_pos hvt1]
    exact ih name t post (fun p hp => hpre p (by simp [hp])) hbad

/-- C8: `has_shape(types, err)` returns `true` iff the value is an object
and every declared (name, kind) pair is present with the declared kind; and
on the first offending pair in declaration order — key missing or kind
mismatched — it returns `false` with an error message naming that field. -/
theorem has_shape_spec :
    (∀ (j : Json) (types : List (String × JType)),
      (j.has_shape types).1 = true ↔
        ∃ kvs, j = Json.obj kvs ∧
          ∀ p ∈ types, ∃ v, Json.findKey kvs p.1 = some v ∧ v.typeOf = p.2) ∧
    (∀ (kvs : List (String × Json)) (pre : List (String × JType)) (name : String)
       (t : JType) (post : List (String × JType)),
      (∀ p ∈ pre, ∃ v, Json.findKey kvs p.1 = some v ∧ v.typeOf = p.2) →
      (∀ v, Json.findKey kvs name = some v → v.typeOf ≠ t) →
      (Json.obj kvs).has_shape (pre ++ (name, t) :: post) = (false, Json.shapeErr name)) := by
  constructor
  · intro j types
    cases j with
    | obj kvs =>
      rw [show (Json.obj kvs).has_shape types = Json.shapeCheck kvs types from rfl,
        shapeCheck_true_iff]
      constructor
      · intro h
        exact ⟨kvs, rfl, h⟩
      · rintro ⟨kvs', heq, h⟩
        cases heq
        exact h
    | null => simp [Json.has_shape]
    | num q => simp [Json.has_shape]
    | bool b => simp [Json.has_shape]
    | str s => simp [Json.has_shape]
    | arr xs => simp [Json.has_shape]
  · intro kvs pre name t post hpre hbad
    exact shapeCheck_first_failure kvs pre name t post hpre hbad

/-- C8 witness: the spec's own example — validating the shape
`[("name", STRING), ("age", NUMBER)]` against `{"name":"x"}` fails naming
`"age"`, and against `{"name":"x","age":30}` succeeds. -/
theorem has_shape_spec_witness :
    (Json.obj [("name", Json.str "x")]).has_shape
        [("name", JType.STRING), ("age", JType.NUMBER)]
      = (false, Json.shapeErr "age") ∧
    ((Json.obj [("name", Json.str "x"), ("age", Json.num 30)]).has_shape
        [("name", JType.STRING), ("age", JType.NUMBER)]).1 = true := by
  constructor
  · refine has_shape_spec.2 [("name", Json.str "x")] [("name", JType.STRING)]
      "age" JType.NUMBER [] ?_ ?_
    · intro p hp
      rw [List.mem_singleton] at hp
      subst hp
      exact ⟨Json.str "x", by simp [Json.findKey], rfl⟩
    · intro v hv
      simp [Json.findKey] at hv
  · refine (has_shape_spec.1 _ _).2 ⟨[("name", Json.str "x"), ("age", Json.num 30)], rfl, ?_⟩
    intro p hp
    rw [List.mem_cons, List.mem_singleton] at hp
    rcases hp with h | h <;> subst h
    · exact ⟨Json.str "x", by simp [Json.findKey], rfl⟩
    · exact ⟨Json.num 30, by simp [Json.findKey], rfl⟩

theorem Json.inductionOn (P : Json → Prop) (hnull : P .null) (hnum : ∀ q, P (.num q))
    (hbool : ∀ b, P (.bool b)) (hstr : ∀ s, P (.str s))
    (harr : ∀ xs, (∀ x ∈ xs, P x) → P (.arr xs))
    (hobj : ∀ kvs, (∀ p ∈ kvs, P p.2) → P (.obj kvs)) : ∀ j, P j
  | .null => hnull
  | .num q => hnum q
  | .bool b => hbool b
  | .str s => hstr s
  | .arr xs => harr xs (fun x hx => Json.inductionOn P hnull hnum hbool hstr harr hobj x)
  | .obj kvs => hobj kvs (fun p hp => Json.inductionOn P hnull hnum hbool hstr harr hobj p.2)
termination_by j => sizeOf j
decreasing_by
  · have := List.sizeOf_lt_of_mem hx
    simp only [Json.arr.sizeOf_spec]
    omega
  · have h1 := List.sizeOf_lt_of_mem hp
    obtain ⟨a, b⟩ := p
    simp only [Prod.mk.sizeOf_spec] at h1
    simp only [Json.obj.sizeOf_spec]
    omega

theorem findKey_eq_none_iff (kvs : List (String × Json)) (k : String) :
    Json.findKey kvs k = none ↔ k ∉ Json.keysOf kvs := by
  induction kvs with
  | nil => simp [Json.findKey, Json.keysOf]
  | cons p rest ih =>
    obtain ⟨k1, v1⟩ := p
    rw [keysOf_cons]
    by_cases h : k1 = k
    · subst h
      simp [Json.findKey]
    · rw [show Json.findKey ((k1, v1) :: rest) k = Json.findKey rest k from by
        simp [Json.findKey, h], ih, List.mem_cons]
      constructor
      · intro hn
        push_neg
        exact ⟨fun he => h he.symm, hn⟩
      · intro hn
        push_neg at hn
        exact hn.2

theorem findKey_mem (kvs : List (String × Json)) (k : String) (v : Json)
    (h : Json.findKey kvs k = some v) : (k, v) ∈ kvs := by
  induction kvs with
  | nil => simp [Json.findKey] at h
  | cons p rest ih =>
    obtain ⟨k1, v1⟩ := p
    by_cases hk : k1 = k
    · subst hk
      have h' : v1 = v := by simpa [Json.findKey] using h
      subst h'
      exact List.mem_cons_self ..
    · simp only [Json.findKey, if_neg hk] at h
      exact List.mem_cons_of_mem _ (ih h)

theorem findKey_of_mem_nodup (kvs : List (String × Json)) (k : String) (v : Json)
    (hnd : (Json.keysOf kvs).Nodup) (hmem : (k, v) ∈ kvs) :
    Json.findKey kvs k = some v := by
  induction kvs with
  | nil => simp at hmem
  | cons p rest ih =>
    obtain ⟨k1, v1⟩ := p
    rw [keysOf_cons, List.nodup_cons] at hnd
    rcases List.mem_cons.mp hmem with h | h
    · cases h
      simp [Json.findKey]
    · have hk : k1 ≠ k := by
        intro he
        subst he
        exact hnd.1 (by
          simp only [Json.keysOf, List.mem_map]
          exact ⟨(k1, v), h, rfl⟩)
      simp [Json.findKey, hk, ih hnd.2 h]

theorem beqSub_true_iff (a b : List (String × Json)) :
    Json.beqSub a b = true ↔
      ∀ p ∈ a, ∃ w, Json.findKey b p.1 = some w ∧ Json.beq p.2 w = true := by
  induction a with
  | nil => simp [Json.beqSub]
  | cons p rest ih =>
    obtain ⟨k, v⟩ := p
    rw [show Json.beqSub ((k, v) :: rest) b
        = ((match Json.findKey b k with
            | some w => Json.beq v w
            | none => false) && Json.beqSub rest b) from by rw [Json.beqSub]]
    cases hf : Json.findKey b k with
    | none => simp [hf]
    | some w =>
      simp only [hf, Bool.and_eq_true, ih, List.mem_cons, forall_eq_or_imp]
      constructor
      · rintro ⟨h1, h2⟩
        exact ⟨⟨w, rfl, h1⟩, h2⟩
      · rintro ⟨⟨w', hw', hbw'⟩, h2⟩
        cases hw'
        exact ⟨hbw', h2⟩

theorem beq_refl_of_nodup : ∀ j : Json, KeysNodup j → Json.beq j j = true := by
  intro j
  induction j using Json.inductionOn with
  | hnull => intro _; rw [Json.beq]
  | hnum q => intro _; rw [Json.beq]; simp
  | hbool b => intro _; rw [Json.beq]; simp
  | hstr s => intro _; rw [Json.beq]; simp
  | harr xs ih =>
    intro hk
    have hall : ∀ x ∈ xs, KeysNodup x := by
      cases hk with
      | arr _ h => exact h
    rw [Json.beq]
    clear hk
    induction xs with
    | nil => rw [Json.beqList]
    | cons x rest ihl =>
      rw [Json.beqList, Bool.and_eq_true]
      exact ⟨ih x (by simp) (hall x (by simp)),
        ihl (fun y hy hky => ih y (by simp [hy]) hky) (fun y hy => hall y (by simp [hy]))⟩
  | hobj kvs ih =>
    intro hk
    obtain ⟨hnd, hall⟩ : (Json.keysOf kvs).Nodup ∧ ∀ p ∈ kvs, KeysNodup p.2 := by
      cases hk with
      | obj _ h1 h2 => exact ⟨h1, h2⟩
    rw [Json.beq, Bool.and_eq_true]
    refine ⟨by simp, (beqSub_true_iff kvs kvs).2 ?_⟩
    intro p hp
    exact ⟨p.2, findKey_of_mem_nodup kvs p.1 p.2 hnd (by simpa using hp),
      ih p hp (hall p hp)⟩

theorem keys_mem_iff_findKey (kvs : List (String × Json)) (k : String) :
    k ∈ Json.keysOf kvs ↔ ∃ v, Json.findKey kvs k = some v := by
  constructor
  · intro hk
    cases hf : Json.findKey kvs k with
    | some v => exact ⟨v, rfl⟩
    | none => exact absurd hk ((findKey_eq_none_iff kvs k).1 hf)
  · rintro ⟨v, hv⟩
    by_contra hk
    rw [← findKey_eq_none_iff] at hk
    rw [hk] at hv
    cases hv

theorem beq_obj_iff (o1 o2 : List (String × Json))
    (h1 : (Json.keysOf o1).Nodup) (h2 : (Json.keysOf o2).Nodup) :
    Json.beq (.obj o1) (.obj o2) = true ↔
      ∀ k, optValBeq (Json.findKey o1 k) (Json.findKey o2 k) = true := by
  rw [show Json.beq (.obj o1) (.obj o2) = (o1.length == o2.length && Json.beqSub o1 o2)
    from by rw [Json.beq], Bool.and_eq_true, beq_iff_eq, beqSub_true_iff]
  constructor
  · rintro ⟨hlen, hsub⟩ k
    cases hf1 : Json.findKey o1 k with
    | some v =>
      obtain ⟨w, hw, hbw⟩ := hsub (k, v) (findKey_mem o1 k v hf1)
      simp only [optValBeq, hw, hbw]
    | none =>
      have hsubkeys : Json.keysOf o1 ⊆ Json.keysOf o2 := by
        intro k' hk'
        obtain ⟨v', hv'⟩ := (keys_mem_iff_findKey o1 k').1 hk'
        obtain ⟨w', hw', _⟩ := hsub (k', v') (findKey_mem o1 k' v' hv')
        exact (keys_mem_iff_findKey o2 k').2 ⟨w', hw'⟩
      have hcard : (Json.keysOf o2).toFinset.card ≤ (Json.keysOf o1).toFinset.card := by
        rw [List.toFinset_card_of_nodup h1, List.toFinset_card_of_nodup h2]
        simpa [Json.keysOf] using hlen.ge
      have hfs : (Json.keysOf o1).toFinset = (Json.keysOf o2).toFinset :=
        Finset.eq_of_subset_of_card_le (fun x hx => by
          rw [List.mem_toFinset] at hx ⊢
          exact hsubkeys hx) hcard
      have hk2 : k ∉ Json.keysOf o2 := by
        intro hc
        have : k ∈ Json.keysOf o1 := by
          rw [← List.mem_toFinset, hfs, List.mem_toFinset]
          exact hc
        exact (findKey_eq_none_iff o1 k).1 hf1 this
      rw [(findKey_eq_none_iff o2 k).2 hk2]
      rfl
  · intro hpt
    have hsets : ∀ k, k ∈ Json.keysOf o1 ↔ k ∈ Json.keysOf o2 := by
      intro k
      have hk := hpt k
      constructor
      · intro h
        obtain ⟨v, hv⟩ := (keys_mem_iff_findKey o1 k).1 h
        rw [hv] at hk
        cases hf2 : Json.findKey o2 k with
        | some w => exact (keys_mem_iff_findKey o2 k).2 ⟨w, hf2⟩
        | none => rw [hf2] at hk; cases hk
      · intro h
        obtain ⟨v, hv⟩ := (keys_mem_iff_findKey o2 k).1 h
        rw [hv] at hk
        cases hf1 : Json.findKey o1 k with
        | some w => exact (keys_mem_iff_findKey o1 k).2 ⟨w, hf1⟩
        | none => rw [hf1] at hk; cases hk
    constructor
    · have hfs : (Json.keysOf o1).toFinset = (Json.keysOf o2).toFinset := by
        ext x
        rw [List.mem_toFinset, List.mem_toFinset]
        exact hsets x
      have := congrArg Finset.card hfs
      rw [List.toFinset_card_of_nodup h1, List.toFinset_card_of_nodup h2] at this
      simpa [Json.keysOf] using this
    · intro p hp
      have hf1 : Json.findKey o1 p.1 = some p.2 :=
        findKey_of_mem_nodup o1 p.1 p.2 h1 (by simpa using hp)
      have hk := hpt p.1
      rw [hf1] at hk
      cases hf2 : Json.findKey o2 p.1 with
      | some w =>
        rw [hf2] at hk
        exact ⟨w, rfl, hk⟩
      | none => rw [hf2] at hk; cases hk

theorem beq_obj_of_perm (o1 o2 : List (String × Json))
    (hk : KeysNodup (.obj o1)) (hp : o1.Perm o2) :
    Json.beq (.obj o1) (.obj o2) = true := by
  obtain ⟨hnd, hall⟩ : (Json.keysOf o1).Nodup ∧ ∀ p ∈ o1, KeysNodup p.2 := by
    cases hk with
    | obj _ ha hb => exact ⟨ha, hb⟩
  have hpk : (Json.keysOf o1).Perm (Json.keysOf o2) := hp.map Prod.fst
  have hnd2 : (Json.keysOf o2).Nodup := hpk.nodup hnd
  rw [beq_obj_iff o1 o2 hnd hnd2]
  intro k
  have heq : Json.findKey o2 k = Json.findKey o1 k := by
    cases hf : Json.findKey o1 k with
    | some v =>
      exact findKey_of_mem_nodup o2 k v hnd2 (hp.subset (findKey_mem o1 k v hf))
    | none =>
      rw [findKey_eq_none_iff] at hf ⊢
      exact fun hc => hf (hpk.mem_iff.2 hc)
  rw [heq]
  cases hf : Json.findKey o1 k with
  | none => rfl
  | some v =>
    simp only [optValBeq]
    exact beq_refl_of_nodup v (hall (k, v) (findKey_mem o1 k v hf))

theorem beqList_iff_forall2 (xs ys : List Json) :
    Json.beqList xs ys = true ↔ List.Forall₂ (fun x y => Json.beq x y = true) xs ys := by
  induction xs generalizing ys with
  | nil => cases ys <;> simp [Json.beqList]
  | cons x xs' ih =>
    cases ys with
    | nil => simp [Json.beqList]
    | cons y ys' =>
      rw [show Json.beqList (x :: xs') (y :: ys') = (Json.beq x y && Json.beqList xs' ys')
        from by rw [Json.beqList], Bool.and_eq_true, ih, List.forall₂_cons]

/-- C3: array equality is element-wise and order-sensitive; object equality
holds iff the two objects bind the same keys to equal values regardless of
insertion order (lookup-pointwise equality); and permuting an object's
stored insertion order never changes the result of `operator==`. -/
theorem equality_semantics :
    (∀ xs ys : List Json,
      Json.beq (.arr xs) (.arr ys) = true ↔
        List.Forall₂ (fun x y => Json.beq x y = true) xs ys) ∧
    (∀ o1 o2 : List (String × Json),
      (Json.keysOf o1).Nodup → (Json.keysOf o2).Nodup →
      (Json.beq (.obj o1) (.obj o2) = true ↔
        ∀ k, optValBeq (Json.findKey o1 k) (Json.findKey o2 k) = true)) ∧
    (∀ o1 o2 : List (String × Json), KeysNodup (.obj o1) → o1.Perm o2 →
      Json.beq (.obj o1) (.obj o2) = true) := by
  refine ⟨?_, beq_obj_iff, beq_obj_of_perm⟩
  intro xs ys
  rw [show Json.beq (.arr xs) (.arr ys) = Json.beqList xs ys from by rw [Json.beq]]
  exact beqList_iff_forall2 xs ys

/-- C3 witness: `{"a":1,"b":2}` and `{"b":2,"a":1}` compare equal although
their insertion orders differ. -/
theorem equality_semantics_witness :
    Json.beq (Json.obj [("a", Json.num 1), ("b", Json.num 2)])
      (Json.obj [("b", Json.num 2), ("a", Json.num 1)]) = true := by
  refine equality_semantics.2.2 _ _ ?_ ?_
  · refine KeysNodup.obj _ (by simp [Json.keysOf]) ?_
    intro p hp
    rcases List.mem_cons.mp hp with h | h
    · subst h
      exact KeysNodup.num 1
    · rw [List.mem_singleton] at h
      subst h
      exact KeysNodup.num 2
  · exact List.Perm.swap ("b", Json.num 2) ("a", Json.num 1) []

theorem jlt_cross (a b : Json) (h : a.typeOf ≠ b.typeOf) :
    Json.jlt a b = decide (a.typeOf.rank < b.typeOf.rank) := by
  cases a <;> cases b <;> first
    | rfl
    | (exact absurd rfl h)
    | simp [Json.jlt, Json.typeOf]

theorem rank_injective : ∀ t u : JType, t.rank = u.rank → t = u := by
  intro t u h
  cases t <;> cases u <;> first
    | rfl
    | simp [JType.rank] at h

theorem typeOf_eq_of_rank_eq (a b : Json) (h : a.typeOf.rank = b.typeOf.rank) :
    a.typeOf = b.typeOf := rank_injective _ _ h

theorem jltList_irrefl (xs : List Json) (h : ∀ x ∈ xs, Json.jlt x x = false) :
    Json.jltList xs xs = false := by
  induction xs with
  | nil => rw [Json.jltList]
  | cons x rest ih =>
    rw [Json.jltList]
    simp only [h x (by simp), if_false]
    exact ih (fun y hy => h y (by simp [hy]))

theorem jltPairs_irrefl (ps : List (String × Json)) (h : ∀ p ∈ ps, Json.jlt p.2 p.2 = false) :
    Json.jltPairs ps ps = false := by
  induction ps with
  | nil => rw [Json.jltPairs]
  | cons p rest ih =>
    obtain ⟨k, v⟩ := p
    rw [Json.jltPairs]
    simp [h (k, v) (by simp), ih (fun q hq => h q (by simp [hq]))]

theorem jlt_irrefl : ∀ a : Json, Json.jlt a a = false := by
  intro a
  induction a using Json.inductionOn with
  | hnull => simp [Json.jlt]
  | hnum q => simp [Json.jlt]
  | hbool b => cases b <;> simp [Json.jlt]
  | hstr s => simp [Json.jlt]
  | harr xs ih =>
    rw [show Json.jlt (.arr xs) (.arr xs) = Json.jltList xs xs from by rw [Json.jlt]]
    exact jltList_irrefl xs ih
  | hobj kvs ih =>
    rw [show Json.jlt (.obj kvs) (.obj kvs) = Json.jltPairs kvs kvs from by rw [Json.jlt]]
    exact jltPairs_irrefl kvs ih

theorem jltList_conn (xs : List Json) :
    ∀ ys : List Json,
      (∀ x ∈ xs, ∀ y ∈ ys, Json.jlt x y = false → Json.jlt y x = false → x = y) →
      Json.jltList xs ys = false → Json.jltList ys xs = false → xs = ys := by
  induction xs with
  | nil =>
    intro ys _ h1 _
    cases ys with
    | nil => rfl
    | cons y ys' => rw [Json.jltList] at h1; cases h1
  | cons x xs' ih =>
    intro ys hconn h1 h2
    cases ys with
    | nil => rw [Json.jltList] at h2; cases h2
    | cons y ys' =>
      rw [Json.jltList] at h1 h2
      by_cases hxy : Json.jlt x y = true
      · simp [hxy] at h1
      · by_cases hyx : Json.jlt y x = true
        · simp [hyx, hxy] at h2
        · have hx : x = y := hconn x (by simp) y (by simp)
            (Bool.eq_false_iff.2 hxy) (Bool.eq_false_iff.2 hyx)
          simp only [hxy, hyx, if_false, Bool.false_eq_true] at h1 h2
          rw [hx, ih ys' (fun a ha b hb => hconn a (by simp [ha]) b (by simp [hb])) h1 h2]

theorem jltPairs_conn (ps : List (String × Json)) :
    ∀ qs : List (String × Json),
      (∀ p ∈ ps, ∀ q ∈ qs, Json.jlt p.2 q.2 = false → Json.jlt q.2 p.2 = false → p.2 = q.2) →
      Json.jltPairs ps qs = false → Json.jltPairs qs ps = false → ps = qs := by
  induction ps with
  | nil =>
    intro qs _ h1 _
    cases qs with
    | nil => rfl
    | cons q qs' => rw [Json.jltPairs] at h1; cases h1
  | cons p ps' ih =>
    intro qs hconn h1 h2
    cases qs with
    | nil => rw [Json.jltPairs] at h2; cases h2
    | cons q qs' =>
      obtain ⟨k1, v1⟩ := p
      obtain ⟨k2, v2⟩ := q
      rw [Json.jltPairs] at h1 h2
      by_cases hk12 : k1 < k2
      · simp [hk12] at h1
      · by_cases hk21 : k2 < k1
        · simp [hk21, hk12] at h2
        · have hk : k1 = k2 := le_antisymm (not_lt.mp hk21) (not_lt.mp hk12)
          by_cases hv12 : Json.jlt v1 v2 = true
          · simp [hk12, hk21, hv12] at h1
          · by_cases hv21 : Json.jlt v2 v1 = true
            · simp [hk12, hk21, hv12, hv21] at h2
            · have hv : v1 = v2 := hconn (k1, v1) (by simp) (k2, v2) (by simp)
                (Bool.eq_false_iff.2 hv12) (Bool.eq_false_iff.2 hv21)
              simp only [hk12, hk21, hv12, hv21, if_false, Bool.false_eq_true] at h1 h2
              rw [hk, hv,
                ih qs' (fun a ha b hb => hconn a (by simp [ha]) b (by simp [hb])) h1 h2]

theorem jlt_conn : ∀ a b : Json, Json.jlt a b = false → Json.jlt b a = false → a = b := by
  intro a
  induction a using Json.inductionOn with
  | hnull =>
    intro b h1 h2
    cases b <;> simp_all [Json.jlt, Json.typeOf, JType.rank]
  | hnum q =>
    intro b h1 h2
    cases b with
    | num q2 =>
      simp only [Json.jlt, decide_eq_false_iff_not] at h1 h2
      exact congrArg Json.num (le_antisymm (not_lt.mp h2) (not_lt.mp h1))
    | null => simp_all [Json.jlt, Json.typeOf, JType.rank]
    | bool v => simp_all [Json.jlt, Json.typeOf, JType.rank]
    | str s => simp_all [Json.jlt, Json.typeOf, JType.rank]
    | arr xs => simp_all [Json.jlt, Json.typeOf, JType.rank]
    | obj kvs => simp_all [Json.jlt, Json.typeOf, JType.rank]
  | hbool v =>
    intro b h1 h2
    cases b <;> cases v <;> simp_all [Json.jlt, Json.typeOf, JType.rank]
  | hstr s =>
    intro b h1 h2
    cases b with
    | str s2 =>
      simp only [Json.jlt, decide_eq_false_iff_not] at h1 h2
      exact congrArg Json.str (le_antisymm (not_lt.mp h2) (not_lt.mp h1))
    | null => simp_all [Json.jlt, Json.typeOf, JType.rank]
    | num q => simp_all [Json.jlt, Json.typeOf, JType.rank]
    | bool v => simp_all [Json.jlt, Json.typeOf, JType.rank]
    | arr xs => simp_all [Json.jlt, Json.typeOf, JType.rank]
    | obj kvs => simp_all [Json.jlt, Json.typeOf, JType.rank]
  | harr xs ih =>
    intro b h1 h2
    cases b with
    | arr ys =>
      rw [show Json.jlt (.arr xs) (.arr ys) = Json.jltList xs ys from by rw [Json.jlt]] at h1
      rw [show Json.jlt (.arr ys) (.arr xs) = Json.jltList ys xs from by rw [Json.jlt]] at h2
      rw [jltList_conn xs ys (fun x hx y _ hf1 hf2 => ih x hx y hf1 hf2) h1 h2]
    | null => simp_all [Json.jlt, Json.typeOf, JType.rank]
    | num q => simp_all [Json.jlt, Json.typeOf, JType.rank]
    | bool v => simp_all [Json.jlt, Json.typeOf, JType.rank]
    | str s => simp_all [Json.jlt, Json.typeOf, JType.rank]
    | obj kvs => simp_all [Json.jlt, Json.typeOf, JType.rank]
  | hobj kvs ih =>
    intro b h1 h2
    cases b with
    | obj qs =>
      rw [show Json.jlt (.obj kvs) (.obj qs) = Json.jltPairs kvs qs from by rw [Json.jlt]] at h1
      rw [show Json.jlt (.obj qs) (.obj kvs) = Json.jltPairs qs kvs from by rw [Json.jlt]] at h2
      rw [jltPairs_conn kvs qs (fun p hp q _ hf1 hf2 => ih p hp q.2 hf1 hf2) h1 h2]
    | null => simp_all [Json.jlt, Json.typeOf, JType.rank]
    | num q => simp_all [Json.jlt, Json.typeOf, JType.rank]
    | bool v => simp_all [Json.jlt, Json.typeOf, JType.rank]
    | str s => simp_all [Json.jlt, Json.typeOf, JType.rank]
    | arr ys => simp_all [Json.jlt, Json.typeOf, JType.rank]

theorem jltList_asymm (xs : List Json) :
    ∀ ys : List Json,
      (∀ x ∈ xs, ∀ y ∈ ys, Json.jlt x y = true → Json.jlt y x = false) →
      Json.jltList xs ys = true → Json.jltList ys xs = false := by
  induction xs with
  | nil =>
    intro ys _ _
    cases ys with
    | nil => rw [Json.jltList]
    | cons y ys' => rw [Json.jltList]
  | cons x xs' ih =>
    intro ys hasym h1
    cases ys with
    | nil => rw [Json.jltList] at h1; cases h1
    | cons y ys' =>
      rw [Json.jltList] at h1
      rw [Json.jltList]
      by_cases hxy : Json.jlt x y = true
      · rw [hasym x (by simp) y (by simp) hxy]
        simp [hxy]
      · by_cases hyx : Json.jlt y x = true
        · simp [hxy, hyx] at h1
        · simp only [hxy, hyx, if_false, Bool.false_eq_true] at h1 ⊢
          exact ih ys' (fun a ha b hb hab => hasym a (by simp [ha]) b (by simp [hb]) hab) h1

theorem jltPairs_asymm (ps : List (String × Json)) :
    ∀ qs : List (String × Json),
      (∀ p ∈ ps, ∀ q ∈ qs, Json.jlt p.2 q.2 = true → Json.jlt q.2 p.2 = false) →
      Json.jltPairs ps qs = true → Json.jltPairs qs ps = false := by
  induction ps with
  | nil =>
    intro qs _ _
    cases qs with
    | nil => rw [Json.jltPairs]
    | cons q qs' => rw [Json.jltPairs]
  | cons p ps' ih =>
    intro qs hasym h1
    cases qs with
    | nil => rw [Json.jltPairs] at h1; cases h1
    | cons q qs' =>
      obtain ⟨k1, v1⟩ := p
      obtain ⟨k2, v2⟩ := q
      rw [Json.jltPairs] at h1
      rw [Json.jltPairs]
      by_cases hk12 : k1 < k2
      · have hk21 : ¬ k2 < k1 := asymm hk12
        simp [hk12, hk21]
      · by_cases hk21 : k2 < k1
        · simp [hk12, hk21] at h1
        · by_cases hv12 : Json.jlt v1 v2 = true
          · rw [hasym (k1, v1) (by simp) (k2, v2) (by simp) hv12]
            simp [hk12, hk21, hv12]
          · by_cases hv21 : Json.jlt v2 v1 = true
            · simp [hk12, hk21, hv12, hv21] at h1
            · simp only [hk12, hk21, hv12, hv21, if_false, Bool.false_eq_true] at h1 ⊢
              exact ih qs'
                (fun a ha b hb hab => hasym a (by simp [ha]) b (by simp [hb]) hab) h1

theorem jlt_asymm : ∀ a b : Json, Json.jlt a b = true → Json.jlt b a = false := by
  intro a
  induction a using Json.inductionOn with
  | hnull =>
    intro b h
    cases b <;> simp_all [Json.jlt, Json.typeOf, JType.rank]
  | hnum q =>
    intro b h
    cases b with
    | num q2 =>
      simp only [Json.jlt, decide_eq_true_eq, decide_eq_false_iff_not] at h ⊢
      exact not_lt.mpr h.le
    | null => simp_all [Json.jlt, Json.typeOf, JType.rank]
    | bool v => simp_all [Json.jlt, Json.typeOf, JType.rank]
    | str s => simp_all [Json.jlt, Json.typeOf, JType.rank]
    | arr xs => simp_all [Json.jlt, Json.typeOf, JType.rank]
    | obj kvs => simp_all [Json.jlt, Json.typeOf, JType.rank]
  | hbool v =>
    intro b h
    cases b <;> cases v <;> simp_all [Json.jlt, Json.typeOf, JType.rank]
  | hstr s =>
    intro b h
    cases b with
    | str s2 =>
      simp only [Json.jlt, decide_eq_true_eq, decide_eq_false_iff_not] at h ⊢
      exact not_lt.mpr h.le
    | null => simp_all [Json.jlt, Json.typeOf, JType.rank]
    | num q => simp_all [Json.jlt, Json.typeOf, JType.rank]
    | bool v => simp_all [Json.jlt, Json.typeOf, JType.rank]
    | arr xs => simp_all [Json.jlt, Json.typeOf, JType.rank]
    | obj kvs => simp_all [Json.jlt, Json.typeOf, JType.rank]
  | harr xs ih =>
    intro b h
    cases b with
    | arr ys =>
      rw [show Json.jlt (.arr xs) (.arr ys) = Json.jltList xs ys from by rw [Json.jlt]] at h
      rw [show Json.jlt (.arr ys) (.arr xs) = Json.jltList ys xs from by rw [Json.jlt]]
      exact jltList_asymm xs ys (fun x hx y _ hxy => ih x hx y hxy) h
    | null => simp_all [Json.jlt, Json.typeOf, JType.rank]
    | num q => simp_all [Json.jlt, Json.typeOf, JType.rank]
    | bool v => simp_all [Json.jlt, Json.typeOf, JType.rank]
    | str s => simp_all [Json.jlt, Json.typeOf, JType.rank]
    | obj kvs => simp_all [Json.jlt, Json.typeOf, JType.rank]
  | hobj kvs ih =>
    intro b h
    cases b with
    | obj qs =>
      rw [show Json.jlt (.obj kvs) (.obj qs) = Json.jltPairs kvs qs from by rw [Json.jlt]] at h
      rw [show Json.jlt (.obj qs) (.obj kvs) = Json.jltPairs qs kvs from by rw [Json.jlt]]
      exact jltPairs_asymm kvs qs (fun p hp q _ hpq => ih p hp q.2 hpq) h
    | null => simp_all [Json.jlt, Json.typeOf, JType.rank]
    | num q => simp_all [Json.jlt, Json.typeOf, JType.rank]
    | bool v => simp_all [Json.jlt, Json.typeOf, JType.rank]
    | str s => simp_all [Json.jlt, Json.typeOf, JType.rank]
    | arr ys => simp_all [Json.jlt, Json.typeOf, JType.rank]

theorem jltList_trans (xs : List Json) :
    ∀ ys zs : List Json,
      (∀ x ∈ xs, ∀ y ∈ ys, ∀ z ∈ zs,
        Json.jlt x y = true → Json.jlt y z = true → Json.jlt x z = true) →
      Json.jltList xs ys = true → Json.jltList ys zs = true → Json.jltList xs zs = true := by
  induction xs with
  | nil =>
    intro ys zs _ h1 h2
    cases ys with
    | nil => rw [Json.jltList] at h1; cases h1
    | cons y ys' =>
      cases zs with
      | nil => rw [Json.jltList] at h2; cases h2
      | cons z zs' => rw [Json.jltList]
  | cons x xs' ih =>
    intro ys zs htr h1 h2
    cases ys with
    | nil => rw [Json.jltList] at h1; cases h1
    | cons y ys' =>
      cases zs with
      | nil => rw [Json.jltList] at h2; cases h2
      | cons z zs' =>
        rw [Json.jltList] at h1 h2
        rw [Json.jltList]
        by_cases hxy : Json.jlt x y = true
        · by_cases hyz : Json.jlt y z = true
          · simp [htr x (by simp) y (by simp) z (by simp) hxy hyz]
          · by_cases hzy : Json.jlt z y = true
            · simp [hyz, hzy] at h2
            · have hy : y = z := jlt_conn y z (Bool.eq_false_iff.2 hyz) (Bool.eq_false_iff.2 hzy)
              subst hy
              simp [hxy]
        · by_cases hyx : Json.jlt y x = true
          · simp [hxy, hyx] at h1
          · have hx : x = y := jlt_conn x y (Bool.eq_false_iff.2 hxy) (Bool.eq_false_iff.2 hyx)
            subst hx
            simp only [hxy, hyx, if_false, Bool.false_eq_true] at h1
            by_cases hyz : Json.jlt x z = true
            · simp [hyz]
            · by_cases hzy : Json.jlt z x = true
              · simp [hyz, hzy] at h2
              · have hz : x = z := jlt_conn x z (Bool.eq_false_iff.2 hyz) (Bool.eq_false_iff.2 hzy)
                subst hz
                simp only [hyz, hzy, if_false, Bool.false_eq_true] at h2 ⊢
                exact ih ys' zs'
                  (fun a ha b hb c hc hab hbc =>
                    htr a (by simp [ha]) b (by simp [hb]) c (by simp [hc]) hab hbc) h1 h2

theorem jltPairs_trans (ps : List (String × Json)) :
    ∀ qs rs : List (String × Json),
      (∀ p ∈ ps, ∀ q ∈ qs, ∀ r ∈ rs,
        Json.jlt p.2 q.2 = true → Json.jlt q.2 r.2 = true → Json.jlt p.2 r.2 = true) →
      Json.jltPairs ps qs = true → Json.jltPairs qs rs = true → Json.jltPairs ps rs = true := by
  induction ps with
  | nil =>
    intro qs rs _ h1 h2
    cases qs with
    | nil => rw [Json.jltPairs] at h1; cases h1
    | cons q qs' =>
      cases rs with
      | nil => rw [Json.jltPairs] at h2; cases h2
      | cons r rs' => rw [Json.jltPairs]
  | cons p ps' ih =>
    intro qs rs htr h1 h2
    cases qs with
    | nil => rw [Json.jltPairs] at h1; cases h1
    | cons q qs' =>
      cases rs with
      | nil => rw [Json.jltPairs] at h2; cases h2
      | cons r rs' =>
        obtain ⟨k1, v1⟩ := p
        obtain ⟨k2, v2⟩ := q
        obtain ⟨k3, v3⟩ := r
        rw [Json.jltPairs] at h1 h2
        rw [Json.jltPairs]
        by_cases h12 : k1 < k2
        · by_cases h23 : k2 < k3
          · simp [lt_trans h12 h23]
          · by_cases h32 : k3 < k2
            · simp [h23, h32] at h2
            · have hk : k2 = k3 := le_antisymm (not_lt.mp h32) (not_lt.mp h23)
              subst hk
              simp [h12]
        · by_cases h21 : k2 < k1
          · simp [h12, h21] at h1
          · have hk : k1 = k2 := le_antisymm (not_lt.mp h21) (not_lt.mp h12)
            subst hk
            simp only [h12, h21, if_false] at h1
            by_cases h23 : k1 < k3
            · simp [h23]
            · by_cases h32 : k3 < k1
              · simp [h23, h32] at h2
              · have hk : k1 = k3 := le_antisymm (not_lt.mp h32) (not_lt.mp h23)
                subst hk
                simp only [h23, h32, if_false] at h2 ⊢
                by_cases hv12 : Json.jlt v1 v2 = true
                · by_cases hv23 : Json.jlt v2 v3 = true
                  · simp [htr (k1, v1) (by simp) (k1, v2) (by simp) (k1, v3) (by simp) hv12 hv23]
                  · by_cases hv32 : Json.jlt v3 v2 = true
                    · simp [hv23, hv32] at h2
                    · have hv : v2 = v3 :=
                        jlt_conn v2 v3 (Bool.eq_false_iff.2 hv23) (Bool.eq_false_iff.2 hv32)
                      subst hv
                      simp [hv12]
                · by_cases hv21 : Json.jlt v2 v1 = true
                  · simp [hv12, hv21] at h1
                  · have hv : v1 = v2 :=
                      jlt_conn v1 v2 (Bool.eq_false_iff.2 hv12) (Bool.eq_false_iff.2 hv21)
                    subst hv
                    simp only [hv12, hv21, if_false, Bool.false_eq_true] at h1
                    by_cases hv23 : Json.jlt v1 v3 = true
                    · simp [hv23]
                    · by_cases hv32 : Json.jlt v3 v1 = true
                      · simp [hv23, hv32] at h2
                      · have hv : v1 = v3 :=
                          jlt_conn v1 v3 (Bool.eq_false_iff.2 hv23) (Bool.eq_false_iff.2 hv32)
                        subst hv
                        simp only [hv23, hv32, if_false, Bool.false_eq_true] at h2 ⊢
                        exact ih qs' rs'
                          (fun a ha b hb c hc hab hbc =>
                            htr a (by simp [ha]) b (by simp [hb]) c (by simp [hc]) hab hbc) h1 h2

theorem jlt_trans_kinds (a b c : Json)
    (hsame : a.typeOf = b.typeOf → b.typeOf = c.typeOf →
      Json.jlt a b = true → Json.jlt b c = true → Json.jlt a c = true)
    (h1 : Json.jlt a b = true) (h2 : Json.jlt b c = true) : Json.jlt a c = true := by
  by_cases t1 : a.typeOf = b.typeOf
  · by_cases t2 : b.typeOf = c.typeOf
    · exact hsame t1 t2 h1 h2
    · have hr2 : b.typeOf.rank < c.typeOf.rank := by
        rw [jlt_cross b c t2] at h2
        exact of_decide_eq_true h2
      have hra : a.typeOf.rank = b.typeOf.rank := congrArg JType.rank t1
      have hlt : a.typeOf.rank < c.typeOf.rank := by omega
      have hne : a.typeOf ≠ c.typeOf := fun h => by
        rw [h] at hlt
        exact lt_irrefl _ hlt
      rw [jlt_cross a c hne]
      exact decide_eq_true hlt
  · have hr1 : a.typeOf.rank < b.typeOf.rank := by
      rw [jlt_cross a b t1] at h1
      exact of_decide_eq_true h1
    by_cases t2 : b.typeOf = c.typeOf
    · have hrb : b.typeOf.rank = c.typeOf.rank := congrArg JType.rank t2
      have hlt : a.typeOf.rank < c.typeOf.rank := by omega
      have hne : a.typeOf ≠ c.typeOf := fun h => by
        rw [h] at hlt
        exact lt_irrefl _ hlt
      rw [jlt_cross a c hne]
      exact decide_eq_true hlt
    · have hr2 : b.typeOf.rank < c.typeOf.rank := by
        rw [jlt_cross b c t2] at h2
        exact of_decide_eq_true h2
      have hlt : a.typeOf.rank < c.typeOf.rank := by omega
      have hne : a.typeOf ≠ c.typeOf := fun h => by
        rw [h] at hlt
        exact lt_irrefl _ hlt
      rw [jlt_cross a c hne]
      exact decide_eq_true hlt

theorem jlt_trans :
    ∀ a b c : Json, Json.jlt a b = true → Json.jlt b c = true → Json.jlt a c = true := by
  intro a
  induction a using Json.inductionOn with
  | hnull =>
    intro b c h1 h2
    refine jlt_trans_kinds _ b c ?_ h1 h2
    intro t1 _ h1' _
    cases b with
    | null => rw [show Json.jlt .null .null = false from by simp [Json.jlt]] at h1'; cases h1'
    | num q => simp [Json.typeOf] at t1
    | bool v => simp [Json.typeOf] at t1
    | str s => simp [Json.typeOf] at t1
    | arr xs => simp [Json.typeOf] at t1
    | obj kvs => simp [Json.typeOf] at t1
  | hnum q =>
    intro b c h1 h2
    refine jlt_trans_kinds _ b c ?_ h1 h2
    intro t1 t2 h1' h2'
    cases b with
    | num q2 =>
      cases c with
      | num q3 =>
        simp only [Json.jlt, decide_eq_true_eq] at h1' h2' ⊢
        exact lt_trans h1' h2'
      | null => simp [Json.typeOf] at t2
      | bool v => simp [Json.typeOf] at t2
      | str s => simp [Json.typeOf] at t2
      | arr xs => simp [Json.typeOf] at t2
      | obj kvs => simp [Json.typeOf] at t2
    | null => simp [Json.typeOf] at t1
    | bool v => simp [Json.typeOf] at t1
    | str s => simp [Json.typeOf] at t1
    | arr xs => simp [Json.typeOf] at t1
    | obj kvs => simp [Json.typeOf] at t1
  | hbool v =>
    intro b c h1 h2
    refine jlt_trans_kinds _ b c ?_ h1 h2
    intro t1 t2 h1' h2'
    cases b with
    | bool v2 =>
      cases c with
      | bool v3 => cases v <;> cases v2 <;> cases v3 <;> simp_all [Json.jlt]
      | null => simp [Json.typeOf] at t2
      | num q => simp [Json.typeOf] at t2
      | str s => simp [Json.typeOf] at t2
      | arr xs => simp [Json.typeOf] at t2
      | obj kvs => simp [Json.typeOf] at t2
    | null => simp [Json.typeOf] at t1
    | num q => simp [Json.typeOf] at t1
    | str s => simp [Json.typeOf] at t1
    | arr xs => simp [Json.typeOf] at t1
    | obj kvs => simp [Json.typeOf] at t1
  | hstr s =>
    intro b c h1 h2
    refine jlt_trans_kinds _ b c ?_ h1 h2
    intro t1 t2 h1' h2'
    cases b with
    | str s2 =>
      cases c with
      | str s3 =>
        simp only [Json.jlt, decide_eq_true_eq] at h1' h2' ⊢
        exact lt_trans h1' h2'
      | null => simp [Json.typeOf] at t2
      | num q => simp [Json.typeOf] at t2
      | bool v => simp [Json.typeOf] at t2
      | arr xs => simp [Json.typeOf] at t2
      | obj kvs => simp [Json.typeOf] at t2
    | null => simp [Json.typeOf] at t1
    | num q => simp [Json.typeOf] at t1
    | bool v => simp [Json.typeOf] at t1
    | arr xs => simp [Json.typeOf] at t1
    | obj kvs => simp [Json.typeOf] at t1
  | harr xs ih =>
    intro b c h1 h2
    refine jlt_trans_kinds _ b c ?_ h1 h2
    intro t1 t2 h1' h2'
    cases b with
    | arr ys =>
      cases c with
      | arr zs =>
        rw [show Json.jlt (.arr xs) (.arr ys) = Json.jltList xs ys from by rw [Json.jlt]] at h1'
        rw [show Json.jlt (.arr ys) (.arr zs) = Json.jltList ys zs from by rw [Json.jlt]] at h2'
        rw [show Json.jlt (.arr xs) (.arr zs) = Json.jltList xs zs from by rw [Json.jlt]]
        exact jltList_trans xs ys zs (fun x hx y _ z _ => ih x hx y z) h1' h2'
      | null => simp [Json.typeOf] at t2
      | num q => simp [Json.typeOf] at t2
      | bool v => simp [Json.typeOf] at t2
      | str s2 => simp [Json.typeOf] at t2
      | obj kvs => simp [Json.typeOf] at t2
    | null => simp [Json.typeOf] at t1
    | num q => simp [Json.typeOf] at t1
    | bool v => simp [Json.typeOf] at t1
    | str s2 => simp [Json.typeOf] at t1
    | obj kvs => simp [Json.typeOf] at t1
  | hobj kvs ih =>
    intro b c h1 h2
    refine jlt_trans_kinds _ b c ?_ h1 h2
    intro t1 t2 h1' h2'
    cases b with
    | obj qs =>
      cases c with
      | obj rs =>
        rw [show Json.jlt (.obj kvs) (.obj qs) = Json.jltPairs kvs qs from by rw [Json.jlt]] at h1'
        rw [show Json.jlt (.obj qs) (.obj rs) = Json.jltPairs qs rs from by rw [Json.jlt]] at h2'
        rw [show Json.jlt (.obj kvs) (.obj rs) = Json.jltPairs kvs rs from by rw [Json.jlt]]
        exact jltPairs_trans kvs qs rs (fun p hp q _ r _ => ih p hp q.2 r.2) h1' h2'
      | null => simp [Json.typeOf] at t2
      | num q => simp [Json.typeOf] at t2
      | bool v => simp [Json.typeOf] at t2
      | str s2 => simp [Json.typeOf] at t2
      | arr ys => simp [Json.typeOf] at t2
    | null => simp [Json.typeOf] at t1
    | num q => simp [Json.typeOf] at t1
    | bool v => simp [Json.typeOf] at t1
    | str s2 => simp [Json.typeOf] at t1
    | arr ys => simp [Json.typeOf] at t1

/-- C4 (amended): `Json::operator<` is a strict total order over all values
— irreflexive, asymmetric, transitive, and connected (incomparable values
are equal) — and values of differing kinds are ordered by the header's
`Json::Type` enumerator rank, which declares `NUL, NUMBER, BOOL, STRING,
ARRAY, OBJECT` in that order.  Hence the cross-kind chain is
`Null < 1.5 < true < "z" < [1] < {"a":1}`, with Number *before* Bool. -/
theorem order_strict_total_spec :
    (∀ a : Json, Json.jlt a a = false) ∧
    (∀ a b : Json, Json.jlt a b = true → Json.jlt b a = false) ∧
    (∀ a b c : Json, Json.jlt a b = true → Json.jlt b c = true → Json.jlt a c = true) ∧
    (∀ a b : Json, Json.jlt a b = false → Json.jlt b a = false → a = b) ∧
    (∀ a b : Json, a.typeOf ≠ b.typeOf →
      (Json.jlt a b = true ↔ a.typeOf.rank < b.typeOf.rank)) ∧
    (Json.jlt Json.null (Json.num (1.5 : ℚ)) = true ∧
     Json.jlt (Json.num (1.5 : ℚ)) (Json.bool true) = true ∧
     Json.jlt (Json.bool true) (Json.str "z") = true ∧
     Json.jlt (Json.str "z") (Json.arr [Json.num 1]) = true ∧
     Json.jlt (Json.arr [Json.num 1]) (Json.obj [("a", Json.num 1)]) = true) := by
  refine ⟨jlt_irrefl, jlt_asymm, jlt_trans, jlt_conn, ?_, ?_, ?_, ?_, ?_, ?_⟩
  · intro a b h
    rw [jlt_cross a b h]
    exact ⟨of_decide_eq_true, decide_eq_true⟩
  · simp [Json.jlt, Json.typeOf, JType.rank]
  · simp [Json.jlt, Json.typeOf, JType.rank]
  · simp [Json.jlt, Json.typeOf, JType.rank]
  · simp [Json.jlt, Json.typeOf, JType.rank]
  · simp [Json.jlt, Json.typeOf, JType.rank]

/-- C4 witness: asymmetry and transitivity applied along the concrete
cross-kind chain. -/
theorem order_strict_total_witness :
    Json.jlt (Json.num (1.5 : ℚ)) Json.null = false ∧
    Json.jlt Json.null (Json.bool true) = true := by
  constructor
  · exact order_strict_total_spec.2.1 Json.null (Json.num (1.5 : ℚ))
      (by simp [Json.jlt, Json.typeOf, JType.rank])
  · exact order_strict_total_spec.2.2.1 Json.null (Json.num (1.5 : ℚ)) (Json.bool true)
      (by simp [Json.jlt, Json.typeOf, JType.rank])
      (by simp [Json.jlt, Json.typeOf, JType.rank])

/-- C4 counterexample: the claim asserts the kind rank `Bool < Number`, so
`true < 1.5` would hold on every comparison.  On the code's `Json::Type`
enumeration (`NUL, NUMBER, BOOL, ...`) the opposite is true: `operator<`
puts the number `1.5` strictly before the boolean `true`. -/
theorem order_kind_rank_counterexample :
    Json.jlt (Json.bool true) (Json.num (1.5 : ℚ)) = false ∧
    Json.jlt (Json.num (1.5 : ℚ)) (Json.bool true) = true := by
  constructor
  · simp [Json.jlt, Json.typeOf, JType.rank]
  · simp [Json.jlt, Json.typeOf, JType.rank]

/-- C6: the two parse entry points accept exactly the same inputs and
differ only in failure signaling — `try_parse` raises (returns `.error`)
precisely when `parse` sets a non-empty error string, and when both
succeed they return the same value. -/
theorem parse_try_parse_agreement :
    ∀ (t : String) (m : JsonParse),
      ((∃ e, Json.try_parse t m = .error e) ↔ (Json.parse t m).2 ≠ "") ∧
      (∀ v, Json.try_parse t m = .ok v → Json.parse t m = (v, "")) := by
  intro t m
  by_cases h : (Json.parse t m).2 = ""
  · constructor
    · constructor
      · rintro ⟨e, he⟩
        simp [Json.try_parse, h] at he
      · intro hne
        exact absurd h hne
    · intro v hv
      simp only [Json.try_parse, h, if_pos] at hv
      rw [show Json.parse t m = ((Json.parse t m).1, (Json.parse t m).2) from rfl, h]
      cases hv
      rfl
  · constructor
    · constructor
      · intro _
        exact h
      · intro _
        exact ⟨(Json.parse t m).2, by simp [Json.try_parse, h]⟩
    · intro v hv
      simp [Json.try_parse, h] at hv

/-- C6 witness: on `"[true]"` the raising entry point succeeds, so `parse`
returns the same value with an empty error. -/
theorem parse_try_parse_agreement_witness :
    Json.parse "[true]" JsonParse.STANDARD = (Json.arr [Json.bool true], "") :=
  (parse_try_parse_agreement "[true]" JsonParse.STANDARD).2 (Json.arr [Json.bool true]) rfl

/-- C7: code bug.  Parsing the decimal text for 2^53 succeeds and stores
exactly 9007199254740992, whose truncation-to-integer is exactly
9007199254740992 — but that value exceeds `cppIntMax`, the largest value
of the `int` codomain that `src/` declares for `int_value`
(json11.hpp line 185), so no conforming body of `int int_value() const`
can return it exactly as the claim demands. -/
theorem int_value_two_pow_53_code_bug :
    Json.parse "9007199254740992" JsonParse.STANDARD
      = (Json.num 9007199254740992, "") ∧
    (Json.num 9007199254740992).int_value = 9007199254740992 ∧
    cppIntMax < (Json.num 9007199254740992).int_value := by
  have hq : mkNumber false 9007199254740992 0 0 false 0 = (9007199254740992 : ℚ) := by
    simp [mkNumber]
  refine ⟨?_, ?_, ?_⟩
  · calc Json.parse "9007199254740992" JsonParse.STANDARD
        = (Json.num (mkNumber false 9007199254740992 0 0 false 0), "") := rfl
    _ = (Json.num 9007199254740992, "") := by rw [hq]
  · simp [Json.int_value, Json.number_value]
  · have h1 : (Json.num 9007199254740992).int_value = 9007199254740992 := by
      simp [Json.int_value, Json.number_value]
    rw [h1]
    norm_num [cppIntMax]

theorem mkNumber_decimal (neg : Bool) (ip fp flen : Nat) (esign : Bool) (e : Nat) :
    DecimalRat (mkNumber neg ip fp flen esign e) := by
  simp only [mkNumber, DecimalRat]
  cases esign <;> cases neg <;> simp only [Bool.false_eq_true, if_false, if_true]
  · exact ⟨((ip * 10 ^ flen + fp : ℕ) : ℤ) * 10 ^ e, flen, by push_cast; ring⟩
  · exact ⟨-(((ip * 10 ^ flen + fp : ℕ) : ℤ) * 10 ^ e), flen, by push_cast; ring⟩
  · exact ⟨((ip * 10 ^ flen + fp : ℕ) : ℤ), flen + e, by push_cast; ring⟩
  · exact ⟨-((ip * 10 ^ flen + fp : ℕ) : ℤ), flen + e, by push_cast; ring⟩

theorem JInv_keysNodup : ∀ v : Json, JInv v → KeysNodup v := by
  intro v h
  induction h with
  | null => exact KeysNodup.null
  | num q _ => exact KeysNodup.num q
  | bool b => exact KeysNodup.bool b
  | str s => exact KeysNodup.str s
  | arr xs _ ih => exact KeysNodup.arr xs ih
  | obj kvs hnd _ ih => exact KeysNodup.obj kvs hnd ih

theorem mem_setKey (kvs : List (String × Json)) (k : String) (v : Json) :
    ∀ p ∈ Json.setKey kvs k v, p ∈ kvs ∨ p.2 = v := by
  induction kvs with
  | nil =>
    intro p hp
    simp only [Json.setKey, List.mem_singleton] at hp
    subst hp
    exact Or.inr rfl
  | cons q rest ih =>
    obtain ⟨k1, v1⟩ := q
    intro p hp
    by_cases hk : k1 = k
    · simp only [Json.setKey, if_pos hk, List.mem_cons] at hp
      rcases hp with hp | hp
      · subst hp
        exact Or.inr rfl
      · exact Or.inl (List.mem_cons_of_mem _ hp)
    · simp only [Json.setKey, if_neg hk, List.mem_cons] at hp
      rcases hp with hp | hp
      · subst hp
        exact Or.inl (List.mem_cons_self ..)
      · rcases ih p hp with h | h
        · exact Or.inl (List.mem_cons_of_mem _ h)
        · exact Or.inr h

theorem setKey_keys_nodup (kvs : List (String × Json)) (k : String) (v : Json)
    (h : (Json.keysOf kvs).Nodup) : (Json.keysOf (Json.setKey kvs k v)).Nodup := by
  by_cases hk : k ∈ Json.keysOf kvs
  · rw [(setKey_mem_spec kvs k v hk).1]
    exact h
  · rw [setKey_not_mem_spec kvs k v hk]
    rw [show Json.keysOf (kvs ++ [(k, v)]) = Json.keysOf kvs ++ [k] from by
      simp [Json.keysOf]]
    rw [List.nodup_append]
    exact ⟨h, List.nodup_singleton k, by simpa [List.disjoint_singleton] using hk⟩

theorem setKey_values_inv (kvs : List (String × Json)) (k : String) (v : Json)
    (hall : ∀ p ∈ kvs, JInv p.2) (hv : JInv v) :
    ∀ p ∈ Json.setKey kvs k v, JInv p.2 := by
  intro p hp
  rcases mem_setKey kvs k v p hp with h | h
  · exact hall p h
  · rw [h]
    exact hv

theorem parseNum_decimal (s : List Char) (q : ℚ) (r : List Char)
    (h : parseNum s = .ok (q, r)) : DecimalRat q := by
  unfold parseNum at h
  split at h
  all_goals dsimp only at h
  all_goals repeat' split at h
  all_goals try cases h
  all_goals exact mkNumber_decimal ..

theorem vdepthList_le (xs : List Json) (k : Nat) :
    Json.vdepthList xs ≤ k ↔ ∀ x ∈ xs, Json.vdepth x ≤ k := by
  induction xs with
  | nil => simp [Json.vdepthList]
  | cons x rest ih => simp [Json.vdepthList, Nat.max_le, ih]

theorem vdepthMembers_le (kvs : List (String × Json)) (k : Nat) :
    Json.vdepthMembers kvs ≤ k ↔ ∀ p ∈ kvs, Json.vdepth p.2 ≤ k := by
  induction kvs with
  | nil => simp [Json.vdepthMembers]
  | cons p rest ih => simp [Json.vdepthMembers, Nat.max_le, ih]

mutual

theorem parseValue_inv :
    ∀ (m : JsonParse) (fuel depth : Nat) (s : List Char) (v : Json) (r : List Char),
      parseValue m fuel depth s = .ok (v, r) → JInv v ∧ Json.vdepth v ≤ depth
  | m, 0, depth, s, v, r, h => by simp [parseValue] at h
  | m, fuel + 1, 0, s, v, r, h => by simp [parseValue] at h
  | m, fuel + 1, depth + 1, s, v, r, h => by
    simp only [parseValue] at h
    repeat' split at h
    all_goals try cases h
    all_goals first
      | exact ⟨JInv.null, by simp only [Json.vdepth]; omega⟩
      | exact ⟨JInv.bool true, by simp only [Json.vdepth]; omega⟩
      | exact ⟨JInv.bool false, by simp only [Json.vdepth]; omega⟩
      | exact ⟨JInv.str _, by simp only [Json.vdepth]; omega⟩
      | exact ⟨JInv.num _ (parseNum_decimal _ _ _ (by assumption)),
          by simp only [Json.vdepth]; omega⟩
      | exact ⟨JInv.arr [] (by simp),
          by simp only [Json.vdepth, Json.vdepthList]; omega⟩
      | exact ⟨JInv.obj [] (by simp [Json.keysOf]) (by simp),
          by simp only [Json.vdepth, Json.vdepthMembers]; omega⟩
      | (have hall := parseElems_inv m fuel depth _ _ _ (by assumption)
         refine ⟨JInv.arr _ (fun x hx => (hall x hx).1), ?_⟩
         simp only [Json.vdepth]
         have hd := (vdepthList_le _ depth).2 (fun x hx => (hall x hx).2)
         omega)
      | (have hm := parseMembers_inv m fuel depth [] _ _ _ (by assumption)
           (by simp [Json.keysOf]) (by simp)
         refine ⟨JInv.obj _ hm.1 (fun p hp => (hm.2 p hp).1), ?_⟩
         simp only [Json.vdepth]
         have hd := (vdepthMembers_le _ depth).2 (fun p hp => (hm.2 p hp).2)
         omega)

theorem parseElems_inv :
    ∀ (m : JsonParse) (fuel depth : Nat) (s : List Char) (vs : List Json) (r : List Char),
      parseElems m fuel depth s = .ok (vs, r) →
      ∀ x ∈ vs, JInv x ∧ Json.vdepth x ≤ depth
  | m, 0, depth, s, vs, r, h => by simp [parseElems] at h
  | m, fuel + 1, depth, s, vs, r, h => by
    simp only [parseElems] at h
    repeat' split at h
    all_goals try cases h
    all_goals intro x hx
    all_goals first
      | (rw [List.mem_singleton] at hx
         subst hx
         exact parseValue_inv m fuel depth _ _ _ (by assumption))
      | (rcases List.mem_cons.mp hx with hx' | hx'
         · subst hx'
           exact parseValue_inv m fuel depth _ _ _ (by assumption)
         · exact parseElems_inv m fuel depth _ _ _ (by assumption) x hx')

theorem parseMembers_inv :
    ∀ (m : JsonParse) (fuel depth : Nat) (acc : List (String × Json)) (s : List Char)
      (kvs : List (String × Json)) (r : List Char),
      parseMembers m fuel depth acc s = .ok (kvs, r) →
      (Json.keysOf acc).Nodup →
      (∀ p ∈ acc, JInv p.2 ∧ Json.vdepth p.2 ≤ depth) →
      (Json.keysOf kvs).Nodup ∧ ∀ p ∈ kvs, JInv p.2 ∧ Json.vdepth p.2 ≤ depth
  | m, 0, depth, acc, s, kvs, r, h => by simp [parseMembers] at h
  | m, fuel + 1, depth, acc, s, kvs, r, h => by
    intro hnd hall
    simp only [parseMembers] at h
    repeat' split at h
    all_goals try cases h
    all_goals first
      | (refine ⟨setKey_keys_nodup acc _ _ hnd, ?_⟩
         intro p hp
         rcases mem_setKey acc _ _ p hp with hmem | hval
         · exact hall p hmem
         · rw [hval]
           exact parseValue_inv m fuel depth _ _ _ (by assumption))
      | (refine parseMembers_inv m fuel depth _ _ _ _ (by assumption)
           (setKey_keys_nodup acc _ _ hnd) ?_
         intro p hp
         rcases mem_setKey acc _ _ p hp with hmem | hval
         · exact hall p hmem
         · rw [hval]
           exact parseValue_inv m fuel depth _ _ _ (by assumption))

end

theorem digitChar_toNat_sub (d : Nat) (h : d < 10) :
    (Nat.digitChar d).toNat - 48 = d := by
  revert h
  revert d
  decide

theorem isDigitChar_digitChar (d : Nat) (h : d < 10) :
    isDigitChar (Nat.digitChar d) = true := by
  revert h
  revert d
  decide

theorem digitChar_ne_zero_char (d : Nat) (h1 : d < 10) (h2 : d ≠ 0) :
    Nat.digitChar d ≠ '0' := by
  revert h1 h2
  revert d
  decide

theorem natDigits_ne_nil (n : Nat) : natDigits n ≠ [] := by
  unfold natDigits
  split
  · simp
  · rename_i h
    have hne := (Nat.digits_ne_nil_iff_ne_zero (b := 10)).2 h
    simp [hne]

theorem natDigits_all_digits (n : Nat) : ∀ c ∈ natDigits n, isDigitChar c = true := by
  unfold natDigits
  split
  · intro c hc
    rw [List.mem_singleton] at hc
    subst hc
    decide
  · intro c hc
    rw [List.mem_map] at hc
    obtain ⟨d, hd, rfl⟩ := hc
    rw [List.mem_reverse] at hd
    exact isDigitChar_digitChar d (Nat.digits_lt_base (by norm_num) hd)

theorem foldl_digit_chars (ds : List Nat) (hds : ∀ d ∈ ds, d < 10) :
    List.foldl (fun a c => a * 10 + (c.toNat - 48)) 0 ((ds.reverse).map Nat.digitChar)
      = Nat.ofDigits 10 ds := by
  rw [List.foldl_map, List.foldl_reverse]
  induction ds with
  | nil => simp [Nat.ofDigits]
  | cons d rest ih =>
    rw [List.foldr_cons, Nat.ofDigits_cons,
      ih (fun x hx => hds x (List.mem_cons_of_mem _ hx)),
      digitChar_toNat_sub d (hds d (List.mem_cons_self ..))]
    ring

theorem digitsNat_natDigits (n : Nat) : digitsNat (natDigits n) = n := by
  unfold natDigits digitsNat
  split
  · rename_i h
    subst h
    decide
  · rw [foldl_digit_chars _ (fun d hd => Nat.digits_lt_base (by norm_num) hd),
      Nat.ofDigits_digits]

theorem natDigits_head_digit (n : Nat) :
    ∃ c t, natDigits n = c :: t ∧ isDigitChar c = true := by
  cases h : natDigits n with
  | nil => exact absurd h (natDigits_ne_nil n)
  | cons c t =>
    exact ⟨c, t, rfl, natDigits_all_digits n c (h ▸ List.mem_cons_self ..)⟩

theorem natDigits_no_leading_zero (n : Nat) :
    ∀ t, natDigits n = '0' :: t → t = [] := by
  intro t h
  unfold natDigits at h
  split at h
  · cases h
    rfl
  · rename_i hn
    have hdig := (Nat.digits_ne_nil_iff_ne_zero (b := 10)).2 hn
    have hlast := Nat.getLast_digit_ne_zero 10 hn
    rw [show Nat.digits 10 n
        = (Nat.digits 10 n).dropLast ++ [(Nat.digits 10 n).getLast hdig] from
      (List.dropLast_append_getLast hdig).symm] at h
    rw [List.reverse_append, List.reverse_singleton, List.singleton_append, List.map_cons] at h
    have hhead : Nat.digitChar ((Nat.digits 10 n).getLast hdig) = '0' := by
      injection h
    have hlt : (Nat.digits 10 n).getLast hdig < 10 :=
      Nat.digits_lt_base (by norm_num) (List.getLast_mem hdig)
    exact absurd hhead (digitChar_ne_zero_char _ hlt hlast)

theorem natDigits_length_le (m k : Nat) (h1 : m < 10 ^ k) (h2 : k ≠ 0) :
    (natDigits m).length ≤ k := by
  unfold natDigits
  split
  · simpa using Nat.one_le_iff_ne_zero.2 h2
  · rename_i hm
    rw [List.length_map, List.length_reverse]
    by_contra hlen
    push_neg at hlen
    have hb := Nat.base_pow_length_digits_le 10 m (by norm_num) hm
    have hpow : 10 ^ (k + 1) ≤ 10 ^ (Nat.digits 10 m).length :=
      Nat.pow_le_pow_right (by norm_num) hlen
    have hml : 10 * m < 10 * 10 ^ k := by omega
    rw [← pow_succ'] at hml
    omega

theorem takeDigits_nil : takeDigits [] = ([], []) := rfl

theorem takeDigits_cons_nondigit (c : Char) (r : List Char) (h : isDigitChar c = false) :
    takeDigits (c :: r) = ([], c :: r) := by
  simp [takeDigits, h]

theorem takeDigits_stop (rest : List Char)
    (h : ∀ c r', rest = c :: r' → isDigitChar c = false) :
    takeDigits rest = ([], rest) := by
  cases rest with
  | nil => rfl
  | cons c r' => exact takeDigits_cons_nondigit c r' (h c r' rfl)

theorem takeDigits_append (ds : List Char) (tail : List Char)
    (hall : ∀ c ∈ ds, isDigitChar c = true) (htail : takeDigits tail = ([], tail)) :
    takeDigits (ds ++ tail) = (ds, tail) := by
  induction ds with
  | nil =>
    rw [List.nil_append]
    exact htail
  | cons c t ih =>
    rw [List.cons_append]
    simp only [takeDigits, hall c (List.mem_cons_self ..), if_true]
    rw [ih (fun x hx => hall x (List.mem_cons_of_mem _ hx))]

theorem digitsNat_append (l1 l2 : List Char) :
    digitsNat (l1 ++ l2)
      = List.foldl (fun a c => a * 10 + (c.toNat - 48)) (digitsNat l1) l2 := by
  unfold digitsNat
  rw [List.foldl_append]

theorem digitsNat_replicate_zero (z : Nat) (ds : List Char) :
    digitsNat (List.replicate z '0' ++ ds) = digitsNat ds := by
  induction z with
  | zero => simp
  | succ z ih =>
    rw [List.replicate_succ, List.cons_append]
    show List.foldl (fun a c => a * 10 + (c.toNat - 48)) (0 * 10 + ('0'.toNat - 48))
      (List.replicate z '0' ++ ds) = digitsNat ds
    rw [show 0 * 10 + ('0'.toNat - 48) = 0 from by decide]
    exact ih

theorem padZeros_all_digits (k : Nat) (ds : List Char)
    (h : ∀ c ∈ ds, isDigitChar c = true) :
    ∀ c ∈ padZeros k ds, isDigitChar c = true := by
  intro c hc
  rw [padZeros, List.mem_append] at hc
  rcases hc with hc | hc
  · rw [List.eq_of_mem_replicate hc]
    decide
  · exact h c hc

theorem padZeros_length (k : Nat) (ds : List Char) (h : ds.length ≤ k) :
    (padZeros k ds).length = k := by
  rw [padZeros, List.length_append, List.length_replicate]
  omega

theorem digitsNat_padZeros (k : Nat) (ds : List Char) :
    digitsNat (padZeros k ds) = digitsNat ds :=
  digitsNat_replicate_zero _ ds

theorem countFactor_not_dvd (p n : Nat) (h : ¬ p ∣ n) : countFactor p n = 0 := by
  rw [countFactor]
  rw [dif_neg (by tauto)]

theorem countFactor_pow_mul (p a m : Nat) (hp : 2 ≤ p) (hm : m ≠ 0) (hnd : ¬ p ∣ m) :
    countFactor p (p ^ a * m) = a := by
  induction a with
  | zero => simpa using countFactor_not_dvd p m hnd
  | succ a ih =>
    have hpow : p ^ (a + 1) * m ≠ 0 :=
      Nat.mul_ne_zero (pow_ne_zero _ (by omega)) hm
    have hdvd : p ∣ p ^ (a + 1) * m := ⟨p ^ a * m, by ring⟩
    rw [countFactor, dif_pos ⟨hp, hpow, hdvd⟩]
    have hdiv : p ^ (a + 1) * m / p = p ^ a * m := by
      rw [pow_succ, mul_comm (p ^ a) p, mul_assoc, Nat.mul_div_cancel_left _ (by omega)]
    rw [hdiv, ih]

theorem dvd_pow10_decomp : ∀ d : Nat, ∀ m : Nat, d ∣ 10 ^ m → ∃ a b, d = 2 ^ a * 5 ^ b := by
  intro d
  induction d using Nat.strong_induction_on with
  | _ d ih =>
    intro m hd
    rcases Nat.eq_zero_or_pos d with hd0 | hdpos
    · subst hd0
      exact absurd (Nat.eq_zero_of_zero_dvd hd) (pow_ne_zero m (by norm_num))
    · rcases Nat.lt_or_ge d 2 with hd1 | hd2
      · have hone : d = 1 := by omega
        exact ⟨0, 0, by simp [hone]⟩
      · have hne1 : d ≠ 1 := by omega
        have hp := Nat.minFac_prime hne1
        have hpd : d.minFac ∣ d := Nat.minFac_dvd d
        have hp10 : d.minFac ∣ 10 := hp.dvd_of_dvd_pow (hpd.trans hd)
        have hple : d.minFac ≤ 10 := Nat.le_of_dvd (by norm_num) hp10
        have hp2 : 2 ≤ d.minFac := hp.two_le
        have h25 : d.minFac = 2 ∨ d.minFac = 5 := by
          interval_cases h : d.minFac <;> revert hp hp10 <;> decide
        obtain ⟨d', hd'⟩ := hpd
        have hd'pos : 0 < d' := by
          rcases Nat.eq_zero_or_pos d' with h0 | hpos'
          · rw [h0, mul_zero] at hd'
            omega
          · exact hpos'
        have hd'lt : d' < d := by
          have h1 : 1 * d' < d.minFac * d' :=
            mul_lt_mul_of_pos_right (by omega) hd'pos
          rw [one_mul] at h1
          rw [hd']
          exact h1
        have hd'dvd : d' ∣ 10 ^ m := (Dvd.intro_left d.minFac hd'.symm).trans hd
        obtain ⟨a, b, hab⟩ := ih d' hd'lt m hd'dvd
        rcases h25 with h2 | h5
        · exact ⟨a + 1, b, by rw [hd', h2, hab]; ring⟩
        · exact ⟨a, b + 1, by rw [hd', h5, hab]; ring⟩

theorem two_not_dvd_five_pow (b : Nat) : ¬ (2 ∣ 5 ^ b) := by
  intro h
  have := (Nat.prime_two).dvd_of_dvd_pow h
  omega

theorem five_not_dvd_two_pow (a : Nat) : ¬ (5 ∣ 2 ^ a) := by
  intro h
  have := (Nat.prime_five).dvd_of_dvd_pow h
  omega

theorem decimal_den_dvd (q : ℚ) (hq : DecimalRat q) :
    q.den ∣ 10 ^ (max (countFactor 2 q.den) (countFactor 5 q.den)) := by
  obtain ⟨n, k, hnk⟩ := hq
  have hdq : Rat.divInt n ((10 : ℤ) ^ k) = q := by
    rw [Rat.divInt_eq_div, hnk]
    push_cast
    ring
  have hdvd := Rat.den_dvd n ((10 : ℤ) ^ k)
  rw [hdq] at hdvd
  have hden : q.den ∣ 10 ^ k := by exact_mod_cast hdvd
  obtain ⟨a, b, hab⟩ := dvd_pow10_decomp q.den k hden
  have hc2 : countFactor 2 q.den = a := by
    rw [hab]
    exact countFactor_pow_mul 2 a (5 ^ b) (by norm_num) (pow_ne_zero _ (by norm_num))
      (two_not_dvd_five_pow b)
  have hc5 : countFactor 5 q.den = b := by
    rw [hab, mul_comm]
    exact countFactor_pow_mul 5 b (2 ^ a) (by norm_num) (pow_ne_zero _ (by norm_num))
      (five_not_dvd_two_pow a)
  rw [hc2, hc5, hab, show (10 : ℕ) = 2 * 5 from rfl, mul_pow]
  exact Nat.mul_dvd_mul (pow_dvd_pow 2 (le_max_left a b)) (pow_dvd_pow 5 (le_max_right a b))

theorem scaled_cast (q : ℚ) (hq0 : 0 ≤ q) (k : ℕ) (hdvd : q.den ∣ 10 ^ k) :
    ((q.num.natAbs * 10 ^ k / q.den : ℕ) : ℚ) = q * 10 ^ k := by
  have hd : q.den ∣ q.num.natAbs * 10 ^ k := hdvd.mul_left _
  have hden0 : ((q.den : ℚ)) ≠ 0 := by
    exact_mod_cast q.den_nz
  rw [Nat.cast_div hd hden0]
  have habs : (q.num.natAbs : ℤ) = q.num := Int.natAbs_of_nonneg (Rat.num_nonneg.2 hq0)
  have hcast : ((q.num.natAbs * 10 ^ k : ℕ) : ℚ) = (q.num : ℚ) * 10 ^ k := by
    push_cast
    rw [Nat.cast_natAbs (α := ℚ) q.num, abs_of_nonneg (Rat.num_nonneg.2 hq0)]
  rw [hcast]
  calc (q.num : ℚ) * 10 ^ k / q.den = ((q.num : ℚ) / q.den) * 10 ^ k := by ring
  _ = q * 10 ^ k := by rw [Rat.num_div_den]

theorem decimal_den_one (q : ℚ) (hdec : DecimalRat q)
    (h : max (countFactor 2 q.den) (countFactor 5 q.den) = 0) : q.den = 1 := by
  have hdvd := decimal_den_dvd q hdec
  rw [h, pow_zero] at hdvd
  exact Nat.dvd_one.mp hdvd

theorem stopTok_facts (rest : List Char) (h : stopTok rest = true) :
    takeDigits rest = ([], rest) ∧ parseFrac rest = .ok (0, 0, rest) ∧
      parseExp rest = .ok (false, 0, rest) := by
  cases rest with
  | nil => exact ⟨rfl, rfl, rfl⟩
  | cons c r =>
    simp only [stopTok, Bool.or_eq_true, beq_iff_eq] at h
    rcases h with (h | h) | h <;> subst h <;> exact ⟨rfl, rfl, rfl⟩

theorem leading_zero_ok (n : Nat) (d : Char) (ds : List Char) (h : natDigits n = d :: ds) :
    (d == '0' && !ds.isEmpty) = false := by
  by_cases hd : d = '0'
  · subst hd
    rw [natDigits_no_leading_zero n ds h]
    rfl
  · rw [beq_eq_false_iff_ne.mpr hd, Bool.false_and]

theorem mkNumber_false_int (n : ℕ) : mkNumber false n 0 0 false 0 = (n : ℚ) := by
  simp [mkNumber]

theorem mkNumber_false_frac (ip fp k : ℕ) :
    mkNumber false ip fp k false 0 = ((ip * 10 ^ k + fp : ℕ) : ℚ) / 10 ^ k := by
  simp [mkNumber]

theorem mkNumber_true_neg (ip fp flen : ℕ) (esign : Bool) (e : ℕ) :
    mkNumber true ip fp flen esign e = -(mkNumber false ip fp flen esign e) := by
  simp [mkNumber]

theorem renderPosQ_eq (p : ℚ) :
    renderPosQ p =
      (if max (countFactor 2 p.den) (countFactor 5 p.den) = 0
       then natDigits p.num.natAbs
       else
        natDigits (p.num.natAbs * 10 ^ (max (countFactor 2 p.den) (countFactor 5 p.den)) / p.den
            / 10 ^ (max (countFactor 2 p.den) (countFactor 5 p.den))) ++
          '.' :: padZeros (max (countFactor 2 p.den) (countFactor 5 p.den))
            (natDigits (p.num.natAbs * 10 ^ (max (countFactor 2 p.den) (countFactor 5 p.den))
              / p.den % 10 ^ (max (countFactor 2 p.den) (countFactor 5 p.den))))) := rfl

theorem renderFrac_spec (p : ℚ) (hp0 : 0 ≤ p) (k : ℕ) (hk0 : k ≠ 0)
    (hdvd : p.den ∣ 10 ^ k) (rest : List Char)
    (htd : takeDigits rest = ([], rest)) :
    ∃ (d : Char) (ds : List Char) (fp flen : ℕ) (r2 : List Char),
      takeDigits ((natDigits (p.num.natAbs * 10 ^ k / p.den / 10 ^ k) ++
        '.' :: padZeros k (natDigits (p.num.natAbs * 10 ^ k / p.den % 10 ^ k))) ++ rest)
        = (d :: ds, r2) ∧
      (d == '0' && !ds.isEmpty) = false ∧
      parseFrac r2 = .ok (fp, flen, rest) ∧
      mkNumber false (digitsNat (d :: ds)) fp flen false 0 = p := by
  have hpow0 : (0 : ℕ) < 10 ^ k := Nat.pos_pow_of_pos k (by norm_num)
  obtain ⟨d, ds, hds, _⟩ := natDigits_head_digit (p.num.natAbs * 10 ^ k / p.den / 10 ^ k)
  have hfrac_lt : p.num.natAbs * 10 ^ k / p.den % 10 ^ k < 10 ^ k := Nat.mod_lt _ hpow0
  have hpadlen : (padZeros k (natDigits (p.num.natAbs * 10 ^ k / p.den % 10 ^ k))).length = k :=
    padZeros_length k _ (natDigits_length_le _ k hfrac_lt hk0)
  obtain ⟨c0, t0, hpz⟩ : ∃ c0 t0,
      padZeros k (natDigits (p.num.natAbs * 10 ^ k / p.den % 10 ^ k)) = c0 :: t0 := by
    cases hc : padZeros k (natDigits (p.num.natAbs * 10 ^ k / p.den % 10 ^ k)) with
    | nil =>
      rw [hc] at hpadlen
      simp at hpadlen
      exact absurd hpadlen.symm hk0
    | cons c0 t0 => exact ⟨c0, t0, rfl⟩
  refine ⟨d, ds, digitsNat (padZeros k (natDigits (p.num.natAbs * 10 ^ k / p.den % 10 ^ k))),
    k, '.' :: (padZeros k (natDigits (p.num.natAbs * 10 ^ k / p.den % 10 ^ k)) ++ rest),
    ?_, leading_zero_ok _ _ _ hds, ?_, ?_⟩
  · rw [List.append_assoc, List.cons_append]
    rw [takeDigits_append _ _ (natDigits_all_digits _)
      (takeDigits_cons_nondigit '.' _ (by decide)), hds]
  · show parseFrac ('.' :: _) = _
    rw [show ∀ r, parseFrac ('.' :: r)
        = (match takeDigits r with
           | ([], _) => Except.error ⟨"at least one digit required in fractional part", r.length⟩
           | (ds', r2) => Except.ok (digitsNat ds', ds'.length, r2)) from fun r => rfl]
    rw [takeDigits_append _ rest (padZeros_all_digits _ _ (natDigits_all_digits _)) htd]
    rw [hpz]
    simp only []
    rw [← hpz, hpadlen]
  · rw [← hds, digitsNat_natDigits, digitsNat_padZeros, digitsNat_natDigits,
      mkNumber_false_frac]
    rw [Nat.div_add_mod']
    rw [scaled_cast p hp0 k hdvd]
    field_simp

theorem renderPos_spec (p : ℚ) (hp0 : 0 ≤ p) (hdec : DecimalRat p) (rest : List Char)
    (hstop : stopTok rest = true) :
    ∃ (d : Char) (ds : List Char) (fp flen : ℕ) (r2 : List Char),
      takeDigits (renderPosQ p ++ rest) = (d :: ds, r2) ∧
      (d == '0' && !ds.isEmpty) = false ∧
      parseFrac r2 = .ok (fp, flen, rest) ∧
      mkNumber false (digitsNat (d :: ds)) fp flen false 0 = p := by
  obtain ⟨htd, hpf, _⟩ := stopTok_facts rest hstop
  by_cases hk0 : max (countFactor 2 p.den) (countFactor 5 p.den) = 0
  · have hrq : renderPosQ p = natDigits p.num.natAbs := by
      rw [renderPosQ_eq, if_pos hk0]
    have hden1 := decimal_den_one p hdec hk0
    obtain ⟨d, ds, hds, _⟩ := natDigits_head_digit p.num.natAbs
    refine ⟨d, ds, 0, 0, rest, ?_, leading_zero_ok _ _ _ hds, hpf, ?_⟩
    · rw [hrq, takeDigits_append _ _ (natDigits_all_digits _) htd, hds]
    · rw [← hds, digitsNat_natDigits, mkNumber_false_int]
      have hp' : p = (p.num : ℚ) := by
        conv_lhs => rw [← Rat.num_div_den p]
        rw [hden1]
        simp
      rw [Nat.cast_natAbs (α := ℚ) p.num, abs_of_nonneg (Rat.num_nonneg.2 hp0)]
      exact hp'.symm
  · have hrq : renderPosQ p
        = natDigits (p.num.natAbs * 10 ^ (max (countFactor 2 p.den) (countFactor 5 p.den))
            / p.den / 10 ^ (max (countFactor 2 p.den) (countFactor 5 p.den))) ++
          '.' :: padZeros (max (countFactor 2 p.den) (countFactor 5 p.den))
            (natDigits (p.num.natAbs * 10 ^ (max (countFactor 2 p.den) (countFactor 5 p.den))
              / p.den % 10 ^ (max (countFactor 2 p.den) (countFactor 5 p.den)))) := by
      rw [renderPosQ_eq, if_neg hk0]
    rw [hrq]
    exact renderFrac_spec p hp0 _ hk0 (decimal_den_dvd p hdec) rest htd
theorem takeDigits_head (s : List Char) (d : Char) (ds r : List Char)
    (h : takeDigits s = (d :: ds, r)) : ∃ t, s = d :: t ∧ isDigitChar d = true := by
  cases s with
  | nil => simp [takeDigits] at h
  | cons c t =>
    by_cases hc : isDigitChar c = true
    · rw [takeDigits, if_pos hc] at h
      dsimp only at h
      injection h with h1 h2
      injection h1 with h3 h4
      exact ⟨t, by rw [h3], h3 ▸ hc⟩
    · rw [takeDigits_cons_nondigit c t (Bool.eq_false_iff.2 hc)] at h
      cases h

theorem parseNum_render (q : ℚ) (hdec : DecimalRat q) (rest : List Char)
    (hstop : stopTok rest = true) :
    parseNum (renderQNum q ++ rest) = .ok (q, rest) := by
  obtain ⟨_, _, hpe⟩ := stopTok_facts rest hstop
  by_cases hq0 : q < 0
  · have hrn : renderQNum q = '-' :: renderPosQ (-q) := by
      unfold renderQNum
      rw [if_pos hq0]
    have hneg0 : 0 ≤ -q := by linarith
    have hdecn : DecimalRat (-q) := by
      obtain ⟨n, k, h⟩ := hdec
      exact ⟨-n, k, by rw [h]; push_cast; ring⟩
    obtain ⟨d, ds, fp, flen, r2, htd, hlz, hpf, hmk⟩ :=
      renderPos_spec (-q) hneg0 hdecn rest hstop
    rw [hrn, List.cons_append]
    unfold parseNum
    split
    · rename_i r' heq
      injection heq with h1 h2
      subst h2
      dsimp only
      rw [htd]
      dsimp only
      rw [hlz]
      simp only [Bool.false_eq_true, if_false]
      rw [hpf]
      dsimp only
      rw [hpe]
      dsimp only
      rw [mkNumber_true_neg, hmk, neg_neg]
    · rename_i hnomatch
      exact absurd rfl (hnomatch (renderPosQ (-q) ++ rest))
  · push_neg at hq0
    have hrn : renderQNum q = renderPosQ q := by
      unfold renderQNum
      rw [if_neg (not_lt.2 hq0)]
    obtain ⟨d, ds, fp, flen, r2, htd, hlz, hpf, hmk⟩ := renderPos_spec q hq0 hdec rest hstop
    obtain ⟨t, hs, hdd⟩ := takeDigits_head _ _ _ _ htd
    rw [hrn]
    unfold parseNum
    rw [hs]
    split
    · rename_i r' heq
      injection heq with h1 h2
      rw [h1] at hdd
      exact absurd hdd (by decide)
    · dsimp only
      rw [← hs, htd]
      dsimp only
      rw [hlz]
      simp only [Bool.false_eq_true, if_false]
      rw [hpf]
      dsimp only
      rw [hpe]
      dsimp only
      rw [hmk]
theorem hexVal_hexDigitChar (n : Nat) (h : n < 16) : hexVal (hexDigitChar n) = some n := by
  revert h
  revert n
  decide

theorem parseStrBody_escapeChar (c : Char) (s : List Char) :
    parseStrBody (escapeChar c ++ s)
      = match parseStrBody s with
        | .ok (cs, r) => .ok (c :: cs, r)
        | .error e => .error e := by
  by_cases h1 : c = '"'
  · subst h1; rfl
  by_cases h2 : c = '\\'
  · subst h2; rfl
  by_cases h3 : c = Char.ofNat 8
  · subst h3; rfl
  by_cases h4 : c = Char.ofNat 12
  · subst h4; rfl
  by_cases h5 : c = '\n'
  · subst h5; rfl
  by_cases h6 : c = Char.ofNat 13
  · subst h6; rfl
  by_cases h7 : c = '\t'
  · subst h7; rfl
  have hec : escapeChar c =
      (if c.toNat < 0x20 then
        '\\' :: 'u' :: '0' :: '0'
          :: hexDigitChar (c.toNat / 16) :: [hexDigitChar (c.toNat % 16)]
      else [c]) := by
    simp only [escapeChar, beq_eq_false_iff_ne.mpr h1, beq_eq_false_iff_ne.mpr h2,
      beq_eq_false_iff_ne.mpr h3, beq_eq_false_iff_ne.mpr h4, beq_eq_false_iff_ne.mpr h5,
      beq_eq_false_iff_ne.mpr h6, beq_eq_false_iff_ne.mpr h7, Bool.false_eq_true, if_false]
  by_cases hlt : c.toNat < 0x20
  · rw [hec, if_pos hlt]
    rw [show (('\\' :: 'u' :: '0' :: '0'
          :: hexDigitChar (c.toNat / 16) :: [hexDigitChar (c.toNat % 16)]) ++ s)
      = '\\' :: 'u' :: '0' :: '0' :: hexDigitChar (c.toNat / 16)
          :: hexDigitChar (c.toNat % 16) :: s from rfl]
    simp only [parseStrBody]
    rw [show hexVal '0' = some 0 from rfl,
      hexVal_hexDigitChar (c.toNat / 16) (by omega),
      hexVal_hexDigitChar (c.toNat % 16) (by omega)]
    dsimp only
    rw [show ((0 * 16 + 0) * 16 + c.toNat / 16) * 16 + c.toNat % 16 = c.toNat from by omega]
    rw [if_pos (by
      simp only [Bool.or_eq_true, decide_eq_true_eq]
      exact Or.inl (by omega))]
    rw [Char.ofNat_toNat]
  · rw [hec, if_neg hlt]
    rw [show ([c] ++ s) = c :: s from rfl]
    rw [parseStrBody.eq_def]
    split
    · rename_i heq
      cases heq
    · rename_i heq
      injection heq with ha hb
      exact absurd ha h1
    · rename_i a b d e r heq
      injection heq with ha hb
      exact absurd ha h2
    · rename_i d r heq
      injection heq with ha hb
      exact absurd ha h2
    · rename_i w c' r' n1 n2 n3 heq
      injection heq with ha hb
      subst ha
      subst hb
      rw [if_neg (by simpa using hlt)]
theorem parseStrBody_escapeList (cs rest : List Char) :
    parseStrBody (escapeList cs ++ '"' :: rest) = .ok (cs, rest) := by
  induction cs with
  | nil => rfl
  | cons c cs ih =>
    rw [show escapeList (c :: cs) = escapeChar c ++ escapeList cs from rfl,
      List.append_assoc, parseStrBody_escapeChar, ih]

theorem skipWs_cons (m : JsonParse) (c : Char) (r : List Char)
    (hw : isWsChar c = false) (hs : (c == '/') = false) :
    skipWs m (c :: r) = .ok (c :: r) := by
  simp [skipWs, skipC, hw, hs]

theorem headOk_digit (c : Char) (h : isDigitChar c = true) :
    isWsChar c = false ∧ (c == '/') = false ∧ (c == ']') = false := by
  refine ⟨?_, ?_, ?_⟩
  · by_contra hw
    rw [Bool.not_eq_false] at hw
    simp only [isWsChar, Bool.or_eq_true, beq_iff_eq] at hw
    rcases hw with (h1 | h1) | h1 | h1 <;> subst h1 <;> exact absurd h (by decide)
  · by_contra hs
    rw [Bool.not_eq_false, beq_iff_eq] at hs
    subst hs
    exact absurd h (by decide)
  · by_contra hb
    rw [Bool.not_eq_false, beq_iff_eq] at hb
    subst hb
    exact absurd h (by decide)

theorem renderPosQ_head (p : ℚ) :
    ∃ d t, renderPosQ p = d :: t ∧ isDigitChar d = true := by
  rw [renderPosQ_eq]
  split
  · exact natDigits_head_digit _
  · obtain ⟨d, t, hd, hdig⟩ := natDigits_head_digit
      (p.num.natAbs * 10 ^ (max (countFactor 2 p.den) (countFactor 5 p.den)) / p.den
        / 10 ^ (max (countFactor 2 p.den) (countFactor 5 p.den)))
    rw [hd, List.cons_append]
    exact ⟨d, _, rfl, hdig⟩

theorem dumpChars_head (v : Json) :
    ∃ c t, Json.dumpChars v = c :: t ∧ isWsChar c = false ∧ (c == '/') = false
      ∧ (c == ']') = false := by
  cases v with
  | null => exact ⟨'n', _, rfl, by decide, by decide, by decide⟩
  | bool b =>
    cases b
    · exact ⟨'f', _, rfl, by decide, by decide, by decide⟩
    · exact ⟨'t', _, rfl, by decide, by decide, by decide⟩
  | num q =>
    rw [show Json.dumpChars (.num q) = renderQNum q from rfl]
    unfold renderQNum
    split
    · exact ⟨'-', _, rfl, by decide, by decide, by decide⟩
    · obtain ⟨d, t, hd, hdig⟩ := renderPosQ_head q
      obtain ⟨hw, hs, hb⟩ := headOk_digit d hdig
      exact ⟨d, t, hd, hw, hs, hb⟩
  | str s => exact ⟨'"', _, rfl, by decide, by decide, by decide⟩
  | arr xs => exact ⟨'[', _, rfl, by decide, by decide, by decide⟩
  | obj kvs => exact ⟨'{', _, rfl, by decide, by decide, by decide⟩

theorem dumpChars_length_pos (v : Json) : 1 ≤ (Json.dumpChars v).length := by
  obtain ⟨c, t, h, -⟩ := dumpChars_head v
  rw [h]
  simp

theorem dumpElems_head (x : Json) (xs : List Json) :
    ∃ c t, Json.dumpElems (x :: xs) = c :: t ∧ isWsChar c = false ∧ (c == '/') = false
      ∧ (c == ']') = false := by
  obtain ⟨c, t, hct, h1, h2, h3⟩ := dumpChars_head x
  cases xs with
  | nil =>
    exact ⟨c, t, by rw [show Json.dumpElems [x] = Json.dumpChars x from rfl, hct], h1, h2, h3⟩
  | cons y ys =>
    refine ⟨c, t ++ ',' :: Json.dumpElems (y :: ys), ?_, h1, h2, h3⟩
    rw [show Json.dumpElems (x :: y :: ys)
        = Json.dumpChars x ++ ',' :: Json.dumpElems (y :: ys) from rfl, hct, List.cons_append]

theorem parseVal_str_step (m : JsonParse) (fuel depth : Nat) (r cs rest : List Char)
    (h : parseStrBody r = .ok (cs, rest)) :
    parseValue m (fuel + 1) (depth + 1) ('"' :: r) = .ok (.str (String.mk cs), rest) := by
  have h0 : parseValue m (fuel + 1) (depth + 1) ('"' :: r)
      = (match parseStrBody r with
         | .ok (cs, rest) => Except.ok (Json.str (String.mk cs), rest)
         | .error e => Except.error e) := rfl
  rw [h0, h]

theorem parseVal_num_step (m : JsonParse) (fuel depth : Nat) (c : Char) (r : List Char)
    (q : ℚ) (rest : List Char)
    (hws : skipWs m (c :: r) = .ok (c :: r))
    (hc : (c == '-' || isDigitChar c) = true)
    (hnum : parseNum (c :: r) = .ok (q, rest)) :
    parseValue m (fuel + 1) (depth + 1) (c :: r) = .ok (.num q, rest) := by
  simp only [parseValue]
  rw [hws]
  split
  all_goals try (rename_i heq; exact Except.noConfusion heq)
  all_goals try (rename_i heq; injection heq with hl)
  all_goals try exact List.noConfusion hl
  all_goals try (injection hl with hc1 hc2)
  all_goals try subst hc1
  all_goals try subst hc2
  all_goals try subst hl
  all_goals try exact Bool.noConfusion hc
  all_goals rw [if_pos hc, hnum]

theorem parseVal_arr_nil (m : JsonParse) (fuel depth : Nat) (rest : List Char) :
    parseValue m (fuel + 1) (depth + 1) ('[' :: ']' :: rest) = .ok (.arr [], rest) := rfl

theorem parseVal_arr_step (m : JsonParse) (fuel depth : Nat) (r : List Char) (c : Char)
    (r2 : List Char) (xs : List Json) (rest : List Char)
    (hsk : skipWs m r = .ok (c :: r2))
    (hc : (c == ']') = false)
    (he : parseElems m fuel depth (c :: r2) = .ok (xs, rest)) :
    parseValue m (fuel + 1) (depth + 1) ('[' :: r) = .ok (.arr xs, rest) := by
  have h0 : parseValue m (fuel + 1) (depth + 1) ('[' :: r)
      = (match skipWs m r with
         | .error e => Except.error e
         | .ok (']' :: r2) => Except.ok (Json.arr [], r2)
         | .ok s2 =>
           match parseElems m fuel depth s2 with
           | .ok (xs, rest) => Except.ok (Json.arr xs, rest)
           | .error e => Except.error e) := rfl
  rw [h0, hsk]
  split
  all_goals try (rename_i heq; exact Except.noConfusion heq)
  all_goals try (rename_i heq; injection heq with hl)
  all_goals try exact List.noConfusion hl
  all_goals try (injection hl with hc1 hc2)
  all_goals try subst hc1
  all_goals try subst hc2
  all_goals try subst hl
  all_goals try exact Bool.noConfusion hc
  all_goals rw [he]

theorem parseVal_obj_nil (m : JsonParse) (fuel depth : Nat) (rest : List Char) :
    parseValue m (fuel + 1) (depth + 1) ('{' :: '}' :: rest) = .ok (.obj [], rest) := rfl

theorem parseVal_obj_step (m : JsonParse) (fuel depth : Nat) (r : List Char) (c : Char)
    (r2 : List Char) (kvs : List (String × Json)) (rest : List Char)
    (hsk : skipWs m r = .ok (c :: r2))
    (hc : (c == '}') = false)
    (hm : parseMembers m fuel depth [] (c :: r2) = .ok (kvs, rest)) :
    parseValue m (fuel + 1) (depth + 1) ('{' :: r) = .ok (.obj kvs, rest) := by
  have h0 : parseValue m (fuel + 1) (depth + 1) ('{' :: r)
      = (match skipWs m r with
         | .error e => Except.error e
         | .ok ('}' :: r2) => Except.ok (Json.obj [], r2)
         | .ok s2 =>
           match parseMembers m fuel depth [] s2 with
           | .ok (kvs, rest) => Except.ok (Json.obj kvs, rest)
           | .error e => Except.error e) := rfl
  rw [h0, hsk]
  split
  all_goals try (rename_i heq; exact Except.noConfusion heq)
  all_goals try (rename_i heq; injection heq with hl)
  all_goals try exact List.noConfusion hl
  all_goals try (injection hl with hc1 hc2)
  all_goals try subst hc1
  all_goals try subst hc2
  all_goals try subst hl
  all_goals try exact Bool.noConfusion hc
  all_goals rw [hm]
theorem vdepth_pos (v : Json) : 1 ≤ Json.vdepth v := by
  cases v <;> (simp only [Json.vdepth]; omega)

theorem keysOf_append (a b : List (String × Json)) :
    Json.keysOf (a ++ b) = Json.keysOf a ++ Json.keysOf b := by
  simp [Json.keysOf]

theorem dumpMembers_shape (k : String) (w : Json) (kvs : List (String × Json)) :
    ∃ t, Json.dumpMembers ((k, w) :: kvs) = '"' :: t := by
  cases kvs with
  | nil =>
    refine ⟨(escapeList k.data ++ ['"']) ++ ':' :: Json.dumpChars w, ?_⟩
    rw [show Json.dumpMembers [(k, w)] = renderStr k ++ ':' :: Json.dumpChars w from rfl,
      renderStr, List.cons_append]
  | cons p ps =>
    refine ⟨(escapeList k.data ++ ['"'])
      ++ ':' :: (Json.dumpChars w ++ ',' :: Json.dumpMembers (p :: ps)), ?_⟩
    rw [show Json.dumpMembers ((k, w) :: p :: ps)
        = renderStr k ++ ':' :: (Json.dumpChars w ++ ',' :: Json.dumpMembers (p :: ps)) from rfl,
      renderStr, List.cons_append]

theorem fmtErr_ne_empty (orig : List Char) (e : PErr) : fmtErr orig e ≠ "" := by
  intro h
  unfold fmtErr at h
  dsimp only at h
  have hl := congrArg String.length h
  rw [String.length_append, String.length_append, String.length_append,
    String.length_append] at hl
  rw [show (" at line " : String).length = 9 from rfl] at hl
  rw [show (", column " : String).length = 9 from rfl] at hl
  rw [show ("" : String).length = 0 from rfl] at hl
  omega

mutual

theorem rt_val (m : JsonParse) :
    ∀ (fuel depth : Nat) (v : Json) (rest : List Char),
      JInv v → Json.vdepth v ≤ depth → (Json.dumpChars v).length < fuel →
      stopTok rest = true →
      parseValue m fuel depth (Json.dumpChars v ++ rest) = .ok (v, rest)
  | fuel, depth, .null, rest, hinv, hd, hf, hstop => by
    cases fuel with
    | zero => exact absurd hf (by omega)
    | succ f =>
    cases depth with
    | zero => exact absurd hd (by simp [Json.vdepth])
    | succ d => rfl
  | fuel, depth, .bool b, rest, hinv, hd, hf, hstop => by
    cases fuel with
    | zero => exact absurd hf (by omega)
    | succ f =>
    cases depth with
    | zero => exact absurd hd (by simp [Json.vdepth])
    | succ d => cases b <;> rfl
  | fuel, depth, .str s, rest, hinv, hd, hf, hstop => by
    cases fuel with
    | zero => exact absurd hf (by omega)
    | succ f =>
    cases depth with
    | zero => exact absurd hd (by simp [Json.vdepth])
    | succ d =>
    have hss : Json.dumpChars (.str s) ++ rest = '"' :: (escapeList s.data ++ '"' :: rest) := by
      rw [show Json.dumpChars (.str s) = renderStr s from rfl, renderStr]
      simp
    rw [hss]
    exact parseVal_str_step m f d _ s.data rest (parseStrBody_escapeList s.data rest)
  | fuel, depth, .num q, rest, hinv, hd, hf, hstop => by
    cases fuel with
    | zero => exact absurd hf (by omega)
    | succ f =>
    cases depth with
    | zero => exact absurd hd (by simp [Json.vdepth])
    | succ d =>
    have hdec : DecimalRat q := by
      cases hinv with
      | num _ hdec => exact hdec
    have hnum := parseNum_render q hdec rest hstop
    rw [show Json.dumpChars (.num q) = renderQNum q from rfl]
    by_cases hq : q < 0
    · have hrn : renderQNum q = '-' :: renderPosQ (-q) := by
        unfold renderQNum
        rw [if_pos hq]
      rw [hrn, List.cons_append]
      refine parseVal_num_step m f d '-' (renderPosQ (-q) ++ rest) q rest ?_ (by decide) ?_
      · exact skipWs_cons m '-' _ (by decide) (by decide)
      · rw [← List.cons_append, ← hrn]
        exact hnum
    · have hrn : renderQNum q = renderPosQ q := by
        unfold renderQNum
        rw [if_neg hq]
      obtain ⟨c, t, hct, hdig⟩ := renderPosQ_head q
      obtain ⟨hw1, hw2, hw3⟩ := headOk_digit c hdig
      rw [hrn, hct, List.cons_append]
      refine parseVal_num_step m f d c (t ++ rest) q rest ?_ ?_ ?_
      · exact skipWs_cons m c _ hw1 hw2
      · rw [hdig, Bool.or_true]
      · rw [← List.cons_append, ← hct, ← hrn]
        exact hnum
  | fuel, depth, .arr [], rest, hinv, hd, hf, hstop => by
    cases fuel with
    | zero => exact absurd hf (by omega)
    | succ f =>
    cases depth with
    | zero => exact absurd hd (by simp [Json.vdepth])
    | succ d => exact parseVal_arr_nil m f d rest
  | fuel, depth, .arr (x :: xs), rest, hinv, hd, hf, hstop => by
    cases fuel with
    | zero => exact absurd hf (by omega)
    | succ f =>
    cases depth with
    | zero => exact absurd hd (by simp [Json.vdepth])
    | succ d =>
    have hall : ∀ y ∈ x :: xs, JInv y := by
      cases hinv with
      | arr _ hall => exact hall
    obtain ⟨c, t, hct, hw1, hw2, hw3⟩ := dumpElems_head x xs
    have hshape : Json.dumpChars (.arr (x :: xs)) ++ rest
        = '[' :: (Json.dumpElems (x :: xs) ++ ']' :: rest) := by
      rw [show Json.dumpChars (.arr (x :: xs))
          = '[' :: (Json.dumpElems (x :: xs) ++ [']']) from rfl]
      simp
    rw [hshape]
    have hfe : (Json.dumpElems (x :: xs)).length + 1 < f := by
      have hlen : (Json.dumpChars (.arr (x :: xs))).length
          = (Json.dumpElems (x :: xs)).length + 2 := by
        rw [show Json.dumpChars (.arr (x :: xs))
            = '[' :: (Json.dumpElems (x :: xs) ++ [']']) from rfl]
        simp only [List.length_cons, List.length_append, List.length_nil]
        try omega
      omega
    have hde : Json.vdepthList (x :: xs) ≤ d := by
      have h2 : Json.vdepth (.arr (x :: xs)) = Json.vdepthList (x :: xs) + 1 := rfl
      omega
    have he := rt_elems m f d x xs rest (fun y hy => hall y hy) hde hfe
    refine parseVal_arr_step m f d _ c (t ++ ']' :: rest) (x :: xs) rest ?_ hw3 ?_
    · rw [hct, List.cons_append]
      exact skipWs_cons m c _ hw1 hw2
    · rw [← List.cons_append, ← hct]
      exact he
  | fuel, depth, .obj [], rest, hinv, hd, hf, hstop => by
    cases fuel with
    | zero => exact absurd hf (by omega)
    | succ f =>
    cases depth with
    | zero => exact absurd hd (by simp [Json.vdepth])
    | succ d => exact parseVal_obj_nil m f d rest
  | fuel, depth, .obj ((k, w) :: ps), rest, hinv, hd, hf, hstop => by
    cases fuel with
    | zero => exact absurd hf (by omega)
    | succ f =>
    cases depth with
    | zero => exact absurd hd (by simp [Json.vdepth])
    | succ d =>
    have hnd : (Json.keysOf ((k, w) :: ps)).Nodup := by
      cases hinv with
      | obj _ hnd hall => exact hnd
    have hall : ∀ p ∈ (k, w) :: ps, JInv p.2 := by
      cases hinv with
      | obj _ hnd hall => exact hall
    obtain ⟨t, ht⟩ := dumpMembers_shape k w ps
    have hshape : Json.dumpChars (.obj ((k, w) :: ps)) ++ rest
        = '{' :: (Json.dumpMembers ((k, w) :: ps) ++ '}' :: rest) := by
      rw [show Json.dumpChars (.obj ((k, w) :: ps))
          = '{' :: (Json.dumpMembers ((k, w) :: ps) ++ ['}']) from rfl]
      simp
    rw [hshape]
    have hfm : (Json.dumpMembers ((k, w) :: ps)).length + 1 < f := by
      have hlen : (Json.dumpChars (.obj ((k, w) :: ps))).length
          = (Json.dumpMembers ((k, w) :: ps)).length + 2 := by
        rw [show Json.dumpChars (.obj ((k, w) :: ps))
            = '{' :: (Json.dumpMembers ((k, w) :: ps) ++ ['}']) from rfl]
        simp only [List.length_cons, List.length_append, List.length_nil]
        try omega
      omega
    have hdm : Json.vdepthMembers ((k, w) :: ps) ≤ d := by
      have h2 : Json.vdepth (.obj ((k, w) :: ps)) = Json.vdepthMembers ((k, w) :: ps) + 1 := rfl
      omega
    have hm := rt_members m f d [] k w ps rest hnd (by simp [Json.keysOf]) hall hdm hfm
    rw [List.nil_append] at hm
    refine parseVal_obj_step m f d _ '"' (t ++ '}' :: rest) ((k, w) :: ps) rest ?_
      (by decide) ?_
    · rw [ht, List.cons_append]
      exact skipWs_cons m '"' _ (by decide) (by decide)
    · rw [← List.cons_append, ← ht]
      exact hm
termination_by fuel depth v rest hinv hd hf hstop => sizeOf v

theorem rt_elems (m : JsonParse) :
    ∀ (fuel depth : Nat) (x : Json) (xs : List Json) (rest : List Char),
      (∀ y ∈ x :: xs, JInv y) → Json.vdepthList (x :: xs) ≤ depth →
      (Json.dumpElems (x :: xs)).length + 1 < fuel →
      parseElems m fuel depth (Json.dumpElems (x :: xs) ++ ']' :: rest)
        = .ok (x :: xs, rest)
  | fuel, depth, x, [], rest, hinv, hd, hf => by
    cases fuel with
    | zero => exact absurd hf (by omega)
    | succ f =>
    have h0 : ∀ s, parseElems m (f + 1) depth s
        = (match parseValue m f depth s with
           | .error e => Except.error e
           | .ok (v, r) =>
             match skipWs m r with
             | .error e => Except.error e
             | .ok (']' :: r2) => Except.ok ([v], r2)
             | .ok (',' :: r2) =>
               (match parseElems m f depth r2 with
                | .ok (vs, rest) => Except.ok (v :: vs, rest)
                | .error e => Except.error e)
             | .ok r2 => Except.error ⟨"expected comma or closing bracket in array", r2.length⟩)
        := fun s => rfl
    have hdd := hd
    rw [show Json.vdepthList [x] = max (Json.vdepth x) (Json.vdepthList []) from rfl,
      Nat.max_le] at hdd
    have hfx : (Json.dumpChars x).length < f := by
      rw [show Json.dumpElems [x] = Json.dumpChars x from rfl] at hf
      omega
    have hv := rt_val m f depth x (']' :: rest) (hinv x (List.mem_cons_self x [])) hdd.1 hfx rfl
    rw [show Json.dumpElems [x] = Json.dumpChars x from rfl, h0, hv]
    rfl
  | fuel, depth, x, y :: ys, rest, hinv, hd, hf => by
    cases fuel with
    | zero => exact absurd hf (by omega)
    | succ f =>
    have h0 : ∀ s, parseElems m (f + 1) depth s
        = (match parseValue m f depth s with
           | .error e => Except.error e
           | .ok (v, r) =>
             match skipWs m r with
             | .error e => Except.error e
             | .ok (']' :: r2) => Except.ok ([v], r2)
             | .ok (',' :: r2) =>
               (match parseElems m f depth r2 with
                | .ok (vs, rest) => Except.ok (v :: vs, rest)
                | .error e => Except.error e)
             | .ok r2 => Except.error ⟨"expected comma or closing bracket in array", r2.length⟩)
        := fun s => rfl
    have hdd := hd
    rw [show Json.vdepthList (x :: y :: ys)
        = max (Json.vdepth x) (Json.vdepthList (y :: ys)) from rfl, Nat.max_le] at hdd
    have hlen2 : (Json.dumpElems (x :: y :: ys)).length
        = (Json.dumpChars x).length + 1 + (Json.dumpElems (y :: ys)).length := by
      rw [show Json.dumpElems (x :: y :: ys)
          = Json.dumpChars x ++ ',' :: Json.dumpElems (y :: ys) from rfl]
      simp only [List.length_cons, List.length_append]
      try omega
    have hpos := dumpChars_length_pos x
    have hfx : (Json.dumpChars x).length < f := by omega
    have hfr : (Json.dumpElems (y :: ys)).length + 1 < f := by omega
    have hshape : Json.dumpElems (x :: y :: ys) ++ ']' :: rest
        = Json.dumpChars x ++ (',' :: (Json.dumpElems (y :: ys) ++ ']' :: rest)) := by
      rw [show Json.dumpElems (x :: y :: ys)
          = Json.dumpChars x ++ ',' :: Json.dumpElems (y :: ys) from rfl]
      simp
    have hv := rt_val m f depth x (',' :: (Json.dumpElems (y :: ys) ++ ']' :: rest))
      (hinv x (List.mem_cons_self x _)) hdd.1 hfx rfl
    have hr := rt_elems m f depth y ys rest (fun z hz => hinv z (List.mem_cons_of_mem x hz))
      hdd.2 hfr
    rw [hshape, h0, hv]
    show (match parseElems m f depth (Json.dumpElems (y :: ys) ++ ']' :: rest) with
          | .ok (vs, r) => Except.ok (x :: vs, r)
          | .error e => Except.error e)
        = Except.ok (x :: y :: ys, rest)
    rw [hr]
termination_by fuel depth x xs rest hinv hd hf => sizeOf (x :: xs)

theorem rt_members (m : JsonParse) :
    ∀ (fuel depth : Nat) (acc : List (String × Json)) (k : String) (w : Json)
      (kvs : List (String × Json)) (rest : List Char),
      (Json.keysOf ((k, w) :: kvs)).Nodup →
      (∀ k2 ∈ Json.keysOf ((k, w) :: kvs), k2 ∉ Json.keysOf acc) →
      (∀ p ∈ (k, w) :: kvs, JInv p.2) →
      Json.vdepthMembers ((k, w) :: kvs) ≤ depth →
      (Json.dumpMembers ((k, w) :: kvs)).length + 1 < fuel →
      parseMembers m fuel depth acc (Json.dumpMembers ((k, w) :: kvs) ++ '}' :: rest)
        = .ok (acc ++ (k, w) :: kvs, rest)
  | fuel, depth, acc, k, w, [], rest, hnd, hdisj, hinv, hd, hf => by
    cases fuel with
    | zero => exact absurd hf (by omega)
    | succ f =>
    have h0 : ∀ (acc2 : List (String × Json)) (s : List Char),
        parseMembers m (f + 1) depth acc2 s
        = (match skipWs m s with
           | .error e => Except.error e
           | .ok ('"' :: r) =>
             (match parseStrBody r with
              | .error e => Except.error e
              | .ok (kcs, r1) =>
                match skipWs m r1 with
                | .error e => Except.error e
                | .ok (':' :: r2) =>
                  (match parseValue m f depth r2 with
                   | .error e => Except.error e
                   | .ok (v, r3) =>
                     match skipWs m r3 with
                     | .error e => Except.error e
                     | .ok ('}' :: r4) => Except.ok (Json.setKey acc2 (String.mk kcs) v, r4)
                     | .ok (',' :: r4) =>
                       parseMembers m f depth (Json.setKey acc2 (String.mk kcs) v) r4
                     | .ok r4 =>
                       Except.error ⟨"expected comma or closing brace in object", r4.length⟩)
                | .ok r2 => Except.error ⟨"expected colon in object", r2.length⟩)
           | .ok r5 => Except.error ⟨"expected string key in object", r5.length⟩)
        := fun acc2 s => rfl
    have hdd := hd
    rw [show Json.vdepthMembers [(k, w)]
        = max (Json.vdepth w) (Json.vdepthMembers []) from rfl, Nat.max_le] at hdd
    have hwinv : JInv w := hinv (k, w) (List.mem_cons_self _ _)
    have hknotin : k ∉ Json.keysOf acc :=
      hdisj k (by rw [keysOf_cons]; exact List.mem_cons_self _ _)
    have hlen1 : (Json.dumpMembers [(k, w)]).length
        = (renderStr k).length + 1 + (Json.dumpChars w).length := by
      rw [show Json.dumpMembers [(k, w)] = renderStr k ++ ':' :: Json.dumpChars w from rfl]
      simp only [List.length_cons, List.length_append]
      try omega
    have hfw : (Json.dumpChars w).length < f := by omega
    have hv := rt_val m f depth w ('}' :: rest) hwinv hdd.1 hfw rfl
    have hshape : Json.dumpMembers [(k, w)] ++ '}' :: rest
        = '"' :: (escapeList k.data ++ ('"' :: (':' :: (Json.dumpChars w ++ '}' :: rest)))) := by
      rw [show Json.dumpMembers [(k, w)] = renderStr k ++ ':' :: Json.dumpChars w from rfl,
        renderStr]
      simp
    rw [hshape, h0, skipWs_cons m '"' _ (by decide) (by decide)]
    show (match parseStrBody (escapeList k.data
            ++ ('"' :: (':' :: (Json.dumpChars w ++ '}' :: rest)))) with
          | .error e => Except.error e
          | .ok (kcs, r1) =>
            match skipWs m r1 with
            | .error e => Except.error e
            | .ok (':' :: r2) =>
              (match parseValue m f depth r2 with
               | .error e => Except.error e
               | .ok (v, r3) =>
                 match skipWs m r3 with
                 | .error e => Except.error e
                 | .ok ('}' :: r4) => Except.ok (Json.setKey acc (String.mk kcs) v, r4)
                 | .ok (',' :: r4) =>
                   parseMembers m f depth (Json.setKey acc (String.mk kcs) v) r4
                 | .ok r4 =>
                   Except.error ⟨"expected comma or closing brace in object", r4.length⟩)
            | .ok r2 => Except.error ⟨"expected colon in object", r2.length⟩)
        = Except.ok (acc ++ [(k, w)], rest)
    rw [parseStrBody_escapeList]
    show (match parseValue m f depth (Json.dumpChars w ++ '}' :: rest) with
          | .error e => Except.error e
          | .ok (v, r3) =>
            match skipWs m r3 with
            | .error e => Except.error e
            | .ok ('}' :: r4) => Except.ok (Json.setKey acc (String.mk k.data) v, r4)
            | .ok (',' :: r4) => parseMembers m f depth (Json.setKey acc (String.mk k.data) v) r4
            | .ok r4 => Except.error ⟨"expected comma or closing brace in object", r4.length⟩)
        = Except.ok (acc ++ [(k, w)], rest)
    rw [hv]
    show Except.ok (Json.setKey acc (String.mk k.data) w, rest)
        = Except.ok (acc ++ [(k, w)], rest)
    rw [show String.mk k.data = k from rfl, setKey_not_mem_spec acc k w hknotin]
  | fuel, depth, acc, k, w, (k2, w2) :: ps, rest, hnd, hdisj, hinv, hd, hf => by
    cases fuel with
    | zero => exact absurd hf (by omega)
    | succ f =>
    have h0 : ∀ (acc2 : List (String × Json)) (s : List Char),
        parseMembers m (f + 1) depth acc2 s
        = (match skipWs m s with
           | .error e => Except.error e
           | .ok ('"' :: r) =>
             (match parseStrBody r with
              | .error e => Except.error e
              | .ok (kcs, r1) =>
                match skipWs m r1 with
                | .error e => Except.error e
                | .ok (':' :: r2) =>
                  (match parseValue m f depth r2 with
                   | .error e => Except.error e
                   | .ok (v, r3) =>
                     match skipWs m r3 with
                     | .error e => Except.error e
                     | .ok ('}' :: r4) => Except.ok (Json.setKey acc2 (String.mk kcs) v, r4)
                     | .ok (',' :: r4) =>
                       parseMembers m f depth (Json.setKey acc2 (String.mk kcs) v) r4
                     | .ok r4 =>
                       Except.error ⟨"expected comma or closing brace in object", r4.length⟩)
                | .ok r2 => Except.error ⟨"expected colon in object", r2.length⟩)
           | .ok r5 => Except.error ⟨"expected string key in object", r5.length⟩)
        := fun acc2 s => rfl
    have hdd := hd
    rw [show Json.vdepthMembers ((k, w) :: (k2, w2) :: ps)
        = max (Json.vdepth w) (Json.vdepthMembers ((k2, w2) :: ps)) from rfl,
      Nat.max_le] at hdd
    have hwinv : JInv w := hinv (k, w) (List.mem_cons_self _ _)
    have hknotin : k ∉ Json.keysOf acc :=
      hdisj k (by rw [keysOf_cons]; exact List.mem_cons_self _ _)
    have hlen2 : (Json.dumpMembers ((k, w) :: (k2, w2) :: ps)).length
        = (renderStr k).length + 1 + (Json.dumpChars w).length + 1
          + (Json.dumpMembers ((k2, w2) :: ps)).length := by
      rw [show Json.dumpMembers ((k, w) :: (k2, w2) :: ps)
          = renderStr k
            ++ ':' :: (Json.dumpChars w ++ ',' :: Json.dumpMembers ((k2, w2) :: ps)) from rfl]
      simp only [List.length_cons, List.length_append]
      try omega
    have hwpos := dumpChars_length_pos w
    have hfw : (Json.dumpChars w).length < f := by omega
    have hfr : (Json.dumpMembers ((k2, w2) :: ps)).length + 1 < f := by omega
    have hv := rt_val m f depth w
      (',' :: (Json.dumpMembers ((k2, w2) :: ps) ++ '}' :: rest)) hwinv hdd.1 hfw rfl
    have hnd2 := hnd
    rw [keysOf_cons, List.nodup_cons] at hnd2
    have hdisj2 : ∀ k3 ∈ Json.keysOf ((k2, w2) :: ps),
        k3 ∉ Json.keysOf (acc ++ [(k, w)]) := by
      intro k3 hk3
      rw [keysOf_append]
      intro hmem
      rw [List.mem_append] at hmem
      rcases hmem with hmem | hmem
      · exact hdisj k3 (by rw [keysOf_cons]; exact List.mem_cons_of_mem _ hk3) hmem
      · rw [show Json.keysOf [(k, w)] = [k] from rfl, List.mem_singleton] at hmem
        subst hmem
        exact hnd2.1 hk3
    have hr := rt_members m f depth (acc ++ [(k, w)]) k2 w2 ps rest hnd2.2 hdisj2
      (fun p hp => hinv p (List.mem_cons_of_mem _ hp)) hdd.2 hfr
    have hshape : Json.dumpMembers ((k, w) :: (k2, w2) :: ps) ++ '}' :: rest
        = '"' :: (escapeList k.data ++ ('"' :: (':' :: (Json.dumpChars w
            ++ (',' :: (Json.dumpMembers ((k2, w2) :: ps) ++ '}' :: rest)))))) := by
      rw [show Json.dumpMembers ((k, w) :: (k2, w2) :: ps)
          = renderStr k
            ++ ':' :: (Json.dumpChars w ++ ',' :: Json.dumpMembers ((k2, w2) :: ps)) from rfl,
        renderStr]
      simp
    rw [hshape, h0, skipWs_cons m '"' _ (by decide) (by decide)]
    show (match parseStrBody (escapeList k.data ++ ('"' :: (':' :: (Json.dumpChars w
            ++ (',' :: (Json.dumpMembers ((k2, w2) :: ps) ++ '}' :: rest)))))) with
          | .error e => Except.error e
          | .ok (kcs, r1) =>
            match skipWs m r1 with
            | .error e => Except.error e
            | .ok (':' :: r2) =>
              (match parseValue m f depth r2 with
               | .error e => Except.error e
               | .ok (v, r3) =>
                 match skipWs m r3 with
                 | .error e => Except.error e
                 | .ok ('}' :: r4) => Except.ok (Json.setKey acc (String.mk kcs) v, r4)
                 | .ok (',' :: r4) =>
                   parseMembers m f depth (Json.setKey acc (String.mk kcs) v) r4
                 | .ok r4 =>
                   Except.error ⟨"expected comma or closing brace in object", r4.length⟩)
            | .ok r2 => Except.error ⟨"expected colon in object", r2.length⟩)
        = Except.ok (acc ++ (k, w) :: (k2, w2) :: ps, rest)
    rw [parseStrBody_escapeList]
    show (match parseValue m f depth (Json.dumpChars w
            ++ (',' :: (Json.dumpMembers ((k2, w2) :: ps) ++ '}' :: rest))) with
          | .error e => Except.error e
          | .ok (v, r3) =>
            match skipWs m r3 with
            | .error e => Except.error e
            | .ok ('}' :: r4) => Except.ok (Json.setKey acc (String.mk k.data) v, r4)
            | .ok (',' :: r4) => parseMembers m f depth (Json.setKey acc (String.mk k.data) v) r4
            | .ok r4 => Except.error ⟨"expected comma or closing brace in object", r4.length⟩)
        = Except.ok (acc ++ (k, w) :: (k2, w2) :: ps, rest)
    rw [hv]
    show parseMembers m f depth (Json.setKey acc (String.mk k.data) w)
          (Json.dumpMembers ((k2, w2) :: ps) ++ '}' :: rest)
        = Except.ok (acc ++ (k, w) :: (k2, w2) :: ps, rest)
    rw [show String.mk k.data = k from rfl, setKey_not_mem_spec acc k w hknotin, hr,
      List.append_assoc]
    rfl
termination_by fuel depth acc k w kvs rest hnd hdisj hinv hd hf => sizeOf ((k, w) :: kvs)

end

/-- C1: round-trip.  For every input text `t` and parse mode `m`, if
`Json::parse` succeeds on `t` (empty error string) yielding value `v`, then
parsing `dump(v)` also succeeds (empty error string) and the parsed result
is equal to `v` under `Json::operator==`. -/
theorem parse_dump_roundtrip (t : String) (m : JsonParse) (v : Json)
    (h : Json.parse t m = (v, "")) :
    (Json.parse (Json.dump v) m).2 = "" ∧
      Json.beq (Json.parse (Json.dump v) m).1 v = true := by
  cases hp : parseTop m t.data with
  | error e =>
    have hparse : Json.parse t m = (.null, fmtErr t.data e) := by
      unfold Json.parse
      rw [hp]
    rw [hparse] at h
    injection h with h1 h2
    exact absurd h2 (fmtErr_ne_empty t.data e)
  | ok p =>
    obtain ⟨v0, r⟩ := p
    cases hsw : skipWs m r with
    | error e =>
      have hparse : Json.parse t m = (.null, fmtErr t.data e) := by
        unfold Json.parse
        rw [hp]
        show (match skipWs m r with
              | .error e => ((Json.null : Json), fmtErr t.data e)
              | .ok [] => (v0, "")
              | .ok r2 =>
                ((Json.null : Json),
                  fmtErr t.data ⟨"unexpected trailing characters", r2.length⟩))
            = ((Json.null : Json), fmtErr t.data e)
        rw [hsw]
      rw [hparse] at h
      injection h with h1 h2
      exact absurd h2 (fmtErr_ne_empty t.data e)
    | ok l =>
      cases l with
      | cons c r2 =>
        have hparse : Json.parse t m
            = (.null, fmtErr t.data ⟨"unexpected trailing characters", (c :: r2).length⟩) := by
          unfold Json.parse
          rw [hp]
          show (match skipWs m r with
                | .error e => ((Json.null : Json), fmtErr t.data e)
                | .ok [] => (v0, "")
                | .ok r2 =>
                  ((Json.null : Json),
                    fmtErr t.data ⟨"unexpected trailing characters", r2.length⟩))
              = ((Json.null : Json),
                  fmtErr t.data ⟨"unexpected trailing characters", (c :: r2).length⟩)
          rw [hsw]
        rw [hparse] at h
        injection h with h1 h2
        exact absurd h2 (fmtErr_ne_empty t.data _)
      | nil =>
        have hparse : Json.parse t m = (v0, "") := by
          unfold Json.parse
          rw [hp]
          show (match skipWs m r with
                | .error e => ((Json.null : Json), fmtErr t.data e)
                | .ok [] => (v0, "")
                | .ok r2 =>
                  ((Json.null : Json),
                    fmtErr t.data ⟨"unexpected trailing characters", r2.length⟩))
              = (v0, "")
          rw [hsw]
        rw [hparse] at h
        injection h with h1 h2
        subst h1
        unfold parseTop at hp
        obtain ⟨hJ, hdep⟩ := parseValue_inv m (t.data.length + 1) maxNestingDepth t.data v0 r hp
        have hrt := rt_val m ((Json.dumpChars v0).length + 1) maxNestingDepth v0 []
          hJ hdep (Nat.lt_succ_self _) rfl
        rw [List.append_nil] at hrt
        have hpt : parseTop m (Json.dump v0).data = .ok (v0, []) := by
          unfold parseTop
          exact hrt
        have hfinal : Json.parse (Json.dump v0) m = (v0, "") := by
          unfold Json.parse
          rw [hpt]
          rfl
        rw [hfinal]
        exact ⟨rfl, beq_refl_of_nodup v0 (JInv_keysNodup v0 hJ)⟩

/-- C1 witness: parsing `"[true,null]"` succeeds, and the round-trip theorem
applies to the parsed value. -/
theorem parse_dump_roundtrip_witness :
    Json.parse "[true,null]" JsonParse.STANDARD = (Json.arr [Json.bool true, Json.null], "") ∧
    ((Json.parse (Json.dump (Json.arr [Json.bool true, Json.null])) JsonParse.STANDARD).2 = ""
      ∧ Json.beq
          (Json.parse (Json.dump (Json.arr [Json.bool true, Json.null])) JsonParse.STANDARD).1
          (Json.arr [Json.bool true, Json.null]) = true) :=
  ⟨rfl, parse_dump_roundtrip "[true,null]" JsonParse.STANDARD
    (Json.arr [Json.bool true, Json.null]) rfl⟩
